import Mathlib

/-!
Verification of the script splitter/scheduler in `lib/handler.js` of
serverless-artillery.  JavaScript numbers are modelled as exact rationals
(`ℚ`); `Math.round` is `round`, `Math.floor` is `Int.floor`, `Math.ceil` is
`Int.ceil`.  A phase object is modelled by its five shape-defining numeric
fields, each an `Option ℚ` (`none` means the field is absent); auxiliary
attributes that the splitter merely deep-copies are not modelled.  Mutation of
JavaScript objects is modelled by explicitly returning the post-state.
-/

namespace SArt

/-- A phase: the five shape-defining fields of an Artillery phase object.
`none` models an absent field, mirroring the `'field' in phase` tests. -/
structure Phase where
  arrivalCount : Option ℚ
  arrivalRate : Option ℚ
  rampTo : Option ℚ
  duration : Option ℚ
  pause : Option ℚ
deriving DecidableEq, Repr

/-- The `_split` settings override object carried by a script (all optional). -/
structure SplitSettings where
  maxScriptDurationInSeconds : Option ℚ := none
  maxScriptRequestsPerSecond : Option ℚ := none
  maxChunkDurationInSeconds : Option ℚ := none
  maxChunkRequestsPerSecond : Option ℚ := none
  timeBufferInMilliseconds : Option ℚ := none
deriving DecidableEq, Repr

/-- A script: `config.phases` plus the control fields used by the orchestrator. -/
structure Script where
  phases : List Phase
  split : Option SplitSettings := none
  genesis : Option ℚ := none
  start : Option ℚ := none
deriving DecidableEq, Repr

/-- Resolved settings (defaults overwritten by user supplied values). -/
structure Settings where
  maxScriptDurationInSeconds : ℚ
  maxScriptRequestsPerSecond : ℚ
  maxChunkDurationInSeconds : ℚ
  maxChunkRequestsPerSecond : ℚ
  timeBufferInMilliseconds : ℚ
deriving DecidableEq, Repr

/-- The defaults of `constants` in handler.js. -/
def MAX_SCRIPT_DURATION_IN_SECONDS : ℚ := 86400
def MAX_SCRIPT_REQUESTS_PER_SECOND : ℚ := 5000
def MAX_CHUNK_DURATION_IN_SECONDS : ℚ := 240
def MAX_CHUNK_REQUESTS_PER_SECOND : ℚ := 25
def TIME_BUFFER_IN_MILLISECONDS : ℚ := 15000

/-- JavaScript truthiness for an optional number: `0` is falsy, any other
number is truthy.  `truthyOr dflt v` models `if (v) ret.x = v` on top of a
default. -/
def truthyOr (dflt : ℚ) : Option ℚ → ℚ
  | none => dflt
  | some v => if v = 0 then dflt else v

/-- `impl.getSettings`: defaults, each overwritten by a truthy user value. -/
def getSettings (script : Script) : Settings :=
  match script.split with
  | none =>
    { maxScriptDurationInSeconds := MAX_SCRIPT_DURATION_IN_SECONDS
      maxScriptRequestsPerSecond := MAX_SCRIPT_REQUESTS_PER_SECOND
      maxChunkDurationInSeconds := MAX_CHUNK_DURATION_IN_SECONDS
      maxChunkRequestsPerSecond := MAX_CHUNK_REQUESTS_PER_SECOND
      timeBufferInMilliseconds := TIME_BUFFER_IN_MILLISECONDS }
  | some s =>
    { maxScriptDurationInSeconds := truthyOr MAX_SCRIPT_DURATION_IN_SECONDS s.maxScriptDurationInSeconds
      maxScriptRequestsPerSecond := truthyOr MAX_SCRIPT_REQUESTS_PER_SECOND s.maxScriptRequestsPerSecond
      maxChunkDurationInSeconds := truthyOr MAX_CHUNK_DURATION_IN_SECONDS s.maxChunkDurationInSeconds
      maxChunkRequestsPerSecond := truthyOr MAX_CHUNK_REQUESTS_PER_SECOND s.maxChunkRequestsPerSecond
      timeBufferInMilliseconds := truthyOr TIME_BUFFER_IN_MILLISECONDS s.timeBufferInMilliseconds }

/-- `impl.phaseLength`: the duration if present, else the pause, else `-1`. -/
def phaseLength (phase : Phase) : ℚ :=
  match phase.duration with
  | some d => d
  | none =>
    match phase.pause with
    | some p => p
    | none => -1

/-- `impl.scriptLength` loop body: accumulate phase lengths, but on the first
phase with negative length return `-1 * i` (the index negated) and stop. -/
def scriptLengthAux : List Phase → ℕ → ℚ → ℚ
  | [], _, acc => acc
  | p :: rest, i, acc =>
    let len := phaseLength p
    if len < 0 then -1 * (i : ℚ) else scriptLengthAux rest (i + 1) (acc + len)

/-- `impl.scriptLength`). -/
def scriptLength (script : Script) : ℚ :=
  scriptLengthAux script.phases 0 0

/-- `impl.phaseWidth`: ramp takes `max(arrivalRate, rampTo)`; then constant
rate; then `arrivalCount / duration`; then pause (width 0); else `-1`. -/
def phaseWidth (phase : Phase) : ℚ :=
  match phase.rampTo, phase.arrivalRate with
  | some r, some a => max a r
  | _, _ =>
    match phase.arrivalRate with
    | some a => a
    | none =>
      match phase.arrivalCount, phase.duration with
      | some n, some d => n / d
      | _, _ =>
        match phase.pause with
        | some _ => 0
        | none => -1

/-- `impl.scriptWidth` loop body: running maximum of phase widths, but on the
first phase with negative width return `-1 * i` and stop. -/
def scriptWidthAux : List Phase → ℕ → ℚ → ℚ
  | [], _, acc => acc
  | p :: rest, i, acc =>
    let w := phaseWidth p
    if w < 0 then -1 * (i : ℚ) else scriptWidthAux rest (i + 1) (max acc w)

/-- `impl.scriptWidth`. -/
def scriptWidth (script : Script) : ℚ :=
  scriptWidthAux script.phases 0 0

/-- The messages `impl.validScript` can deliver to its callback, with the
payload the message interpolates.  The `typeof _split !== 'object'` branch is
untranslatable in a typed model (the field is structured by construction) and
is omitted. -/
inductive ValidationMsg where
  | badChunkDuration
  | badScriptDuration
  | badScriptRequestsPerSecond
  | noPhases
  | invalidPhaseLength (index : ℚ)
  | scriptTooLong
  | invalidPhaseWidth (index : ℚ)
  | scriptTooWide
deriving DecidableEq, Repr

/-- Whether a rational is an integer (JavaScript `Number.isInteger`). -/
def isInt (q : ℚ) : Bool := q.den = 1

/-- `impl.validScript`: `none` models returning `true`; `some msg` models
invoking the callback with the corresponding message and returning `false`.
The settings guards mirror `settings.x && !(Number.isInteger(x) && 0 < x && x ≤ cap)`. -/
def validScript (script : Script) : Option ValidationMsg :=
  let settings := getSettings script
  if settings.maxChunkDurationInSeconds ≠ 0 ∧
      ¬(isInt settings.maxChunkDurationInSeconds ∧ 0 < settings.maxChunkDurationInSeconds ∧
        settings.maxChunkDurationInSeconds ≤ MAX_CHUNK_DURATION_IN_SECONDS) then
    some ValidationMsg.badChunkDuration
  else if settings.maxScriptDurationInSeconds ≠ 0 ∧
      ¬(isInt settings.maxScriptDurationInSeconds ∧ 0 < settings.maxScriptDurationInSeconds ∧
        settings.maxScriptDurationInSeconds ≤ MAX_SCRIPT_DURATION_IN_SECONDS) then
    some ValidationMsg.badScriptDuration
  else if settings.maxScriptRequestsPerSecond ≠ 0 ∧
      ¬(isInt settings.maxScriptRequestsPerSecond ∧ 0 < settings.maxScriptRequestsPerSecond ∧
        settings.maxScriptRequestsPerSecond ≤ MAX_SCRIPT_REQUESTS_PER_SECOND) then
    some ValidationMsg.badScriptRequestsPerSecond
  else if script.phases.length = 0 then
    some ValidationMsg.noPhases
  else
    let len := scriptLength script
    let width := scriptWidth script
    if len < 0 then some (ValidationMsg.invalidPhaseLength (len * -1))
    else if len > settings.maxScriptDurationInSeconds then some ValidationMsg.scriptTooLong
    else if width < 0 then some (ValidationMsg.invalidPhaseWidth (width * -1))
    else if width > settings.maxScriptRequestsPerSecond then some ValidationMsg.scriptTooWide
    else none

/-- `impl.splitPhaseByLength`.  The chunk is a deep copy of the phase and the
remainder is the (mutated) phase itself; both post-states are returned as a
pair `(chunk, remainder)`. -/
def splitPhaseByLength (phase : Phase) (chunkSize : ℚ) : Phase × Phase :=
  match phase.duration with
  | some d =>
    let base :=
      match phase.rampTo, phase.arrivalRate with
      | some r, some a =>
        let diff := r - a
        let frac := chunkSize / d
        let newRampTo : ℚ := (round (a + diff * frac) : ℤ)
        ({ phase with rampTo := some newRampTo },
         { phase with arrivalRate := some newRampTo })
      | _, _ =>
        match phase.arrivalCount with
        | some n =>
          let frac := chunkSize / d
          let newCount : ℚ := (round (n * frac) : ℤ)
          ({ phase with arrivalCount := some newCount },
           { phase with arrivalCount := some (n - newCount) })
        | none => (phase, phase)
    ({ base.1 with duration := some chunkSize },
     { base.2 with duration := some (d - chunkSize) })
  | none =>
    match phase.pause with
    | some p =>
      ({ phase with pause := some chunkSize },
       { phase with pause := some (p - chunkSize) })
    | none => (phase, phase)

/-- The phase-list loop of `impl.splitScriptByLength`: while the remaining
budget is positive and phases remain, shift the first phase; if its length
exceeds the budget, split it (chunk part appended, remainder part unshifted)
and stop; otherwise move it whole and reduce the budget. -/
def splitPhasesByLength (remainingDuration : ℚ) :
    List Phase → List Phase × List Phase
  | [] => ([], [])
  | p :: rest =>
    if remainingDuration > 0 then
      let len := phaseLength p
      if len > remainingDuration then
        let parts := splitPhaseByLength p remainingDuration
        ([parts.1], parts.2 :: rest)
      else
        let tail := splitPhasesByLength (remainingDuration - len) rest
        (p :: tail.1, tail.2)
    else ([], p :: rest)

/-- `impl.splitScriptByLength`: the chunk is a deep copy with phases replaced;
the remainder is the input script with the consumed phases removed and a
truthy `_start` deleted. -/
def splitScriptByLength (script : Script) (chunkSize : ℚ) : Script × Script :=
  let parts := splitPhasesByLength chunkSize script.phases
  ({ script with phases := parts.1 },
   { script with
      phases := parts.2
      start := match script.start with
               | some s => if s = 0 then some 0 else none
               | none => none })

/-- A line in `Ax + By = C` form. -/
structure Line where
  A : ℚ
  B : ℚ
  C : ℚ
deriving DecidableEq, Repr

/-- `impl.abc`: the line through two points. -/
def abc (p1 p2 : ℚ × ℚ) : Line :=
  let A := p2.2 - p1.2
  let B := p1.1 - p2.1
  { A := A, B := B, C := A * p1.1 + B * p1.2 }

/-- `impl.intersect`: Cramer's rule, components rounded; `none` models the
thrown `ParallelLines` error when the determinant is zero. -/
def intersect (l1 l2 : Line) : Option (ℚ × ℚ) :=
  let det := l1.A * l2.B - l2.A * l1.B
  if det = 0 then none
  else
    some ((round ((l2.B * l1.C - l1.B * l2.C) / det) : ℤ),
          (round ((l1.A * l2.C - l2.A * l1.C) / det) : ℤ))

/-- `impl.intersection`: intersect the phase's ramp line with the horizontal
line at `chunkSize`.  The call sites guarantee `arrivalRate`, `rampTo` and
`duration` are present; absent fields read as 0 here. -/
def intersection (phase : Phase) (chunkSize : ℚ) : Option (ℚ × ℚ) :=
  let a := phase.arrivalRate.getD 0
  let r := phase.rampTo.getD 0
  let d := phase.duration.getD 0
  intersect (abc (0, a) (d, r)) (abc (0, chunkSize) (d, chunkSize))

/-- `impl.copyOverwritePush` without the push: copy the phase and overwrite all
five shape fields (a `none` argument models the `null` sentinel, which deletes
the field). -/
def copyOverwrite (phase : Phase)
    (arrivalCount arrivalRate rampTo duration pause : Option ℚ) : Phase :=
  { phase with
      arrivalCount := arrivalCount
      arrivalRate := arrivalRate
      rampTo := rampTo
      duration := duration
      pause := pause }

/-- `impl.addArrivalCount` (the constructed phase; call sites append it). -/
def addArrivalCount (phase : Phase) (arrivalCount duration : ℚ) : Phase :=
  copyOverwrite phase (some arrivalCount) none none (some duration) none

/-- `impl.addArrivalRate`. -/
def addArrivalRate (phase : Phase) (arrivalRate duration : ℚ) : Phase :=
  copyOverwrite phase none (some arrivalRate) none (some duration) none

/-- `impl.addRamp`: the start rate is floored to 1 when not positive. -/
def addRamp (phase : Phase) (arrivalRate rampTo duration : ℚ) : Phase :=
  copyOverwrite phase none (some (if arrivalRate > 0 then arrivalRate else 1))
    (some rampTo) (some duration) none

/-- `impl.addPause`. -/
def addPause (phase : Phase) (pause : ℚ) : Phase :=
  copyOverwrite phase none none none none (some pause)

/-- The degenerate-ramp normalization at the top of `impl.splitPhaseByWidth`:
when `rampTo` and `arrivalRate` are both present and equal, `rampTo` is
deleted from the input phase itself. -/
def normalizeWidthPhase (phase : Phase) : Phase :=
  match phase.rampTo, phase.arrivalRate with
  | some r, some a => if r = a then { phase with rampTo := none } else phase
  | _, _ => phase

/-- The case analysis of `impl.splitPhaseByWidth` after normalization,
producing the `(chunk, remainder)` sub-phase lists; `none` models the
`ParallelLines` throw reachable through `impl.intersection`. -/
def splitPhaseByWidthCore (phase : Phase) (chunkSize : ℚ) :
    Option (List Phase × List Phase) :=
  match phase.rampTo, phase.arrivalRate with
  | some r, some a =>
    let d := phase.duration.getD 0
    let mx := max a r
    let mn := min a r
    if mx ≤ chunkSize then
      some ([addRamp phase a r d], [addPause phase d])
    else if mn ≥ chunkSize then
      some ([addArrivalRate phase chunkSize d],
            [addRamp phase (a - chunkSize) (r - chunkSize) d])
    else
      match intersection phase chunkSize with
      | none => none
      | some pt =>
        let x := pt.1
        if a < r then
          some ([addRamp phase a chunkSize x, addArrivalRate phase chunkSize (d - x)],
                [addPause phase x, addRamp phase 1 (r - chunkSize) (d - x)])
        else
          some ([addArrivalRate phase chunkSize x, addRamp phase chunkSize r (d - x)],
                [addRamp phase (a - chunkSize) 1 x, addPause phase (d - x)])
  | _, _ =>
    match phase.arrivalRate with
    | some a =>
      let d := phase.duration.getD 0
      if a > chunkSize then
        some ([addArrivalRate phase chunkSize d],
              [addArrivalRate phase (a - chunkSize) d])
      else
        some ([addArrivalRate phase a d], [addPause phase d])
    | none =>
      match phase.arrivalCount, phase.duration with
      | some n, some d =>
        let rps := n / d
        if rps ≥ chunkSize then
          let cnt : ℚ := (⌊chunkSize * d⌋ : ℤ)
          some ([addArrivalCount phase cnt d], [addArrivalCount phase (n - cnt) d])
        else
          some ([addArrivalCount phase n d], [addPause phase d])
      | _, _ =>
        match phase.pause with
        | some p => some ([addPause phase p], [addPause phase p])
        | none => some ([], [])

/-- `impl.splitPhaseByWidth` with the input's post-state made explicit: the
first component is the (possibly normalized, i.e. mutated) input phase, the
second the produced `(chunk, remainder)` lists. -/
def splitPhaseByWidthMut (phase : Phase) (chunkSize : ℚ) :
    Phase × Option (List Phase × List Phase) :=
  let p := normalizeWidthPhase phase
  (p, splitPhaseByWidthCore p chunkSize)

/-- `impl.splitPhaseByWidth` (result only). -/
def splitPhaseByWidth (phase : Phase) (chunkSize : ℚ) :
    Option (List Phase × List Phase) :=
  (splitPhaseByWidthMut phase chunkSize).2

/-- The phase loop of `impl.splitScriptByWidth`: concatenate the per-phase
chunk lists and remainder lists in order. -/
def splitPhasesByWidth (chunkSize : ℚ) :
    List Phase → Option (List Phase × List Phase)
  | [] => some ([], [])
  | p :: rest =>
    match splitPhaseByWidth p chunkSize, splitPhasesByWidth chunkSize rest with
    | some parts, some acc => some (parts.1 ++ acc.1, parts.2 ++ acc.2)
    | _, _ => none

/-- `impl.splitScriptByWidth`: both chunk and remainder are deep copies of the
script with the phases replaced by the split results. -/
def splitScriptByWidth (script : Script) (chunkSize : ℚ) :
    Option (Script × Script) :=
  (splitPhasesByWidth chunkSize script.phases).map fun parts =>
    ({ script with phases := parts.1 }, { script with phases := parts.2 })

/-- The `_genesis` assignment of `impl.run`: `if (!script._genesis)
script._genesis = timeNow` (JavaScript truthiness: unset or 0 is falsy). -/
def assignGenesis (timeNow : ℚ) (genesis : Option ℚ) : Option ℚ :=
  match genesis with
  | none => some timeNow
  | some g => if g = 0 then some timeNow else some g

/-- The length branch of `impl.run`: split by `maxChunkDurationInSeconds`,
give the chunk a start time if its `_start` is falsy, and schedule the
remainder exactly one chunk duration later. -/
def runLengthBranch (timeNow : ℚ) (script : Script) : Script × Script :=
  let settings := getSettings script
  let parts := splitScriptByLength script settings.maxChunkDurationInSeconds
  let chunkStart : ℚ :=
    match parts.1.start with
    | some s =>
      if s = 0 then timeNow + settings.timeBufferInMilliseconds else s
    | none => timeNow + settings.timeBufferInMilliseconds
  ({ parts.1 with start := some chunkStart },
   { parts.2 with
      start := some (chunkStart + settings.maxChunkDurationInSeconds * 1000) })

/-- The width branch do-while loop of `impl.run`, counting how many chunks are
dispatched via `invokeSelf`.  Each iteration width-splits the script, sends
the chunk, and continues with the remainder while its width is positive.
`fuel` bounds recursion; `none` means the fuel ran out (or a split failed)
before the loop exited. -/
def widthLoop (chunkSize : ℚ) : ℕ → Script → Option ℕ
  | 0, _ => none
  | fuel + 1, script =>
    match splitScriptByWidth script chunkSize with
    | none => none
    | some parts =>
      if 0 < scriptWidth parts.2 then
        (widthLoop chunkSize fuel parts.2).map Nat.succ
      else some 1

/-- The `toComplete` count of the width branch:
`Math.ceil(scriptWidth / maxChunkRequestsPerSecond)`. -/
def widthToComplete (width chunkSize : ℚ) : ℤ := ⌈width / chunkSize⌉

/-- A phase in one of the four canonical shapes of the data model, with the
numeric invariants of the specification: constant-rate
(`arrivalRate ≥ 0`, `duration > 0`), ramp (`arrivalRate ≥ 0`, `rampTo ≥ 0`,
`duration > 0`), count-over-duration (`arrivalCount ≥ 0`, `duration > 0`),
or pause (`pause > 0`). -/
def validPhase (p : Phase) : Bool :=
  match p with
  | ⟨none, some a, none, some d, none⟩ => 0 ≤ a ∧ 0 < d
  | ⟨none, some a, some r, some d, none⟩ => 0 ≤ a ∧ 0 ≤ r ∧ 0 < d
  | ⟨some n, none, none, some d, none⟩ => 0 ≤ n ∧ 0 < d
  | ⟨none, none, none, none, some q⟩ => 0 < q
  | _ => false

/-- All phases of the script are valid in the sense of `validPhase`. -/
def validPhases (s : Script) : Bool := s.phases.all validPhase

/-- The instantaneous arrival rate of a single phase at local time `t`
(the rate semantics of the data model: linear interpolation for ramps,
`arrivalCount / duration` for count phases, 0 for pauses).  The shape
discrimination order matches `phaseWidth`. -/
def phaseRate (p : Phase) (t : ℚ) : ℚ :=
  match p.rampTo, p.arrivalRate with
  | some r, some a => a + (r - a) * t / p.duration.getD 0
  | _, _ =>
    match p.arrivalRate with
    | some a => a
    | none =>
      match p.arrivalCount, p.duration with
      | some n, some d => n / d
      | _, _ => 0

/-- The rate of a sequence of phases laid out back to back, at global time
`t`: the rate of the sub-phase whose half-open time interval contains `t`
(0 past the end of the sequence). -/
def listRate : List Phase → ℚ → ℚ
  | [], _ => 0
  | p :: rest, t =>
    let len := phaseLength p
    if t < len then phaseRate p t else listRate rest (t - len)

/-- The plain sum of the phase lengths of a list. -/
def sumLen (ps : List Phase) : ℚ := (ps.map phaseLength).sum

/-- The plain running maximum of the phase widths of a list. -/
def foldWidth (ps : List Phase) (acc : ℚ) : ℚ :=
  ps.foldl (fun m p => max m (phaseWidth p)) acc

section Helpers

lemma scriptLengthAux_eq_sum (ps : List Phase) :
    ∀ i acc, (∀ p ∈ ps, 0 ≤ phaseLength p) →
      scriptLengthAux ps i acc = acc + sumLen ps := by
  induction ps with
  | nil => intro i acc _; simp [scriptLengthAux, sumLen]
  | cons p rest ih =>
    intro i acc h
    have hp : 0 ≤ phaseLength p := h p (List.mem_cons_self p rest)
    have hrest : ∀ q ∈ rest, 0 ≤ phaseLength q := fun q hq => h q (List.mem_cons_of_mem p hq)
    simp only [scriptLengthAux, if_neg (not_lt.mpr hp)]
    rw [ih (i + 1) (acc + phaseLength p) hrest]
    simp [sumLen]
    ring

lemma scriptWidthAux_eq_fold (ps : List Phase) :
    ∀ i acc, (∀ p ∈ ps, 0 ≤ phaseWidth p) →
      scriptWidthAux ps i acc = foldWidth ps acc := by
  induction ps with
  | nil => intro i acc _; simp [scriptWidthAux, foldWidth]
  | cons p rest ih =>
    intro i acc h
    have hp : 0 ≤ phaseWidth p := h p (List.mem_cons_self p rest)
    have hrest : ∀ q ∈ rest, 0 ≤ phaseWidth q := fun q hq => h q (List.mem_cons_of_mem p hq)
    simp only [scriptWidthAux, if_neg (not_lt.mpr hp)]
    rw [ih (i + 1) (max acc (phaseWidth p)) hrest]
    simp [foldWidth]

lemma foldWidth_le (ps : List Phase) :
    ∀ acc c, acc ≤ c → (∀ p ∈ ps, phaseWidth p ≤ c) → foldWidth ps acc ≤ c := by
  induction ps with
  | nil => intro acc c hacc _; simpa [foldWidth] using hacc
  | cons p rest ih =>
    intro acc c hacc h
    simp only [foldWidth, List.foldl_cons]
    exact ih _ c (max_le hacc (h p (List.mem_cons_self p rest)))
      (fun q hq => h q (List.mem_cons_of_mem p hq))

lemma le_foldWidth_acc (ps : List Phase) : ∀ acc, acc ≤ foldWidth ps acc := by
  induction ps with
  | nil => intro acc; simp [foldWidth]
  | cons p rest ih =>
    intro acc
    simp only [foldWidth, List.foldl_cons]
    exact le_trans (le_max_left _ _) (ih (max acc (phaseWidth p)))

lemma foldWidth_mem_le (ps : List Phase) :
    ∀ acc, ∀ p ∈ ps, phaseWidth p ≤ foldWidth ps acc := by
  induction ps with
  | nil => intro acc p hp; cases hp
  | cons q rest ih =>
    intro acc p hp
    rcases List.mem_cons.mp hp with h | h
    · subst h
      simp only [foldWidth, List.foldl_cons]
      exact le_trans (le_max_right _ _) (le_foldWidth_acc rest _)
    · simpa [foldWidth] using ih (max acc (phaseWidth q)) p h

lemma foldWidth_append (ps qs : List Phase) (acc : ℚ) :
    foldWidth (ps ++ qs) acc = foldWidth qs (foldWidth ps acc) := by
  simp [foldWidth]

lemma validPhase_len_pos (p : Phase) (h : validPhase p = true) : 0 < phaseLength p := by
  rcases p with ⟨ac, ar, rt, d, ps⟩
  cases ac <;> cases ar <;> cases rt <;> cases d <;> cases ps <;>
    simp_all [validPhase, phaseLength]

lemma validPhase_width_nonneg (p : Phase) (h : validPhase p = true) : 0 ≤ phaseWidth p := by
  rcases p with ⟨ac, ar, rt, d, ps⟩
  cases ac <;> cases ar <;> cases rt <;> cases d <;> cases ps <;>
    simp_all [validPhase, phaseWidth]
  exact div_nonneg (by linarith) (by linarith)

end Helpers

section ConcreteExamples

/-- A concrete pause phase, `{pause: 1}`. -/
def exPause1 : Phase := ⟨none, none, none, none, some 1⟩

/-- A concrete constant-rate phase, `{arrivalRate: 1, duration: 5}`. -/
def exConst15 : Phase := ⟨none, some 1, none, some 5, none⟩

/-- A concrete degenerate ramp, `{arrivalRate: 5, rampTo: 5, duration: 10}`. -/
def exDegenerateRamp : Phase := ⟨none, some 5, some 5, some 10, none⟩

/-- A concrete script with one pause phase, a `_genesis` and a `_start`. -/
def exScriptPause : Script := ⟨[exPause1], none, some 7, some 3⟩

/-- A concrete phase with neither a `duration` nor a `pause` field,
`{arrivalRate: 5}`. -/
def exNoLengthPhase : Phase := ⟨none, some 5, none, none, none⟩

/-- A script whose first (index 0) phase has no valid length. -/
def exScriptNoLength : Script := ⟨[exNoLengthPhase], none, none, none⟩

/-- A script with one five-second constant-rate phase. -/
def exScriptConst : Script := ⟨[exConst15], none, none, none⟩

end ConcreteExamples

section ClaimC10

/-- Claim C10: for every phase carrying both `rampTo` and `arrivalRate` with
equal values, `splitPhaseByWidth` deletes `rampTo` from the input phase object
itself: the post-state of the input is the phase without `rampTo`, observably
different from the phase passed in. -/
theorem c10_splitPhaseByWidth_mutates_input (p : Phase) (c v : ℚ)
    (hr : p.rampTo = some v) (ha : p.arrivalRate = some v) :
    (splitPhaseByWidthMut p c).1 = { p with rampTo := none } ∧
    (splitPhaseByWidthMut p c).1 ≠ p := by
  have hnorm : normalizeWidthPhase p = { p with rampTo := none } := by
    unfold normalizeWidthPhase
    rw [hr, ha]
    simp
  refine ⟨by simpa [splitPhaseByWidthMut] using hnorm, ?_⟩
  simp only [splitPhaseByWidthMut, hnorm]
  intro hcontra
  have : ({ p with rampTo := none } : Phase).rampTo = p.rampTo := by rw [hcontra]
  rw [hr] at this
  simp at this

/-- Witness for C10 at the concrete degenerate ramp
`{arrivalRate: 5, rampTo: 5, duration: 10}` and ceiling 25. -/
theorem c10_witness :
    (splitPhaseByWidthMut exDegenerateRamp 25).1 = { exDegenerateRamp with rampTo := none } ∧
    (splitPhaseByWidthMut exDegenerateRamp 25).1 ≠ exDegenerateRamp :=
  c10_splitPhaseByWidth_mutates_input exDegenerateRamp 25 5 rfl rfl

end ClaimC10

section ClaimC9

/-- Counterexample to claim C9 as stated: `run` does overwrite an existing
`_genesis` value when that value is `0`, because the guard is JavaScript
truthiness (`!script._genesis`), not presence. -/
theorem c9_counterexample :
    (some (0 : ℚ)).isSome = true ∧ assignGenesis 5 (some 0) ≠ some 0 := by
  constructor
  · rfl
  · unfold assignGenesis
    norm_num

/-- Claim C9 (amended): `run` assigns `_genesis = timeNow` exactly when
`_genesis` is unset or `0` (falsy); a nonzero `_genesis` is never overwritten;
and both `splitScriptByLength` and `splitScriptByWidth` propagate `_genesis`
unchanged into chunk and remainder. -/
theorem c9_genesis_amended (t v : ℚ) (hv : v ≠ 0) (s : Script) (k c : ℚ)
    (pr : Script × Script) (hpr : splitScriptByWidth s c = some pr) :
    assignGenesis t (some v) = some v ∧
    assignGenesis t none = some t ∧
    assignGenesis t (some 0) = some t ∧
    (splitScriptByLength s k).1.genesis = s.genesis ∧
    (splitScriptByLength s k).2.genesis = s.genesis ∧
    pr.1.genesis = s.genesis ∧
    pr.2.genesis = s.genesis := by
  have hw : pr.1.genesis = s.genesis ∧ pr.2.genesis = s.genesis := by
    unfold splitScriptByWidth at hpr
    cases hsp : splitPhasesByWidth c s.phases with
    | none => rw [hsp] at hpr; simp at hpr
    | some parts =>
      rw [hsp] at hpr
      simp only [Option.map_some'] at hpr
      injection hpr with h
      rw [← h]
      exact ⟨rfl, rfl⟩
  refine ⟨by simp [assignGenesis, hv], rfl, by simp [assignGenesis], rfl, rfl, hw.1, hw.2⟩

/-- Witness for C9 (amended) at `t = 3`, `v = 7`, the concrete pause script,
`k = 1`, `c = 1`. -/
theorem c9_witness :
    assignGenesis 3 (some 7) = some 7 ∧
    assignGenesis 3 none = some 3 ∧
    assignGenesis 3 (some 0) = some 3 ∧
    (splitScriptByLength exScriptPause 1).1.genesis = exScriptPause.genesis ∧
    (splitScriptByLength exScriptPause 1).2.genesis = exScriptPause.genesis ∧
    (⟨[exPause1], none, some 7, some 3⟩ : Script).genesis = exScriptPause.genesis ∧
    (⟨[exPause1], none, some 7, some 3⟩ : Script).genesis = exScriptPause.genesis :=
  c9_genesis_amended 3 7 (by norm_num) exScriptPause 1 1
    (⟨[exPause1], none, some 7, some 3⟩, ⟨[exPause1], none, some 7, some 3⟩)
    (by decide)

end ClaimC9

section ClaimC8

/-- Claim C8: whenever the orchestrator length-splits, the remainder's
`_start` equals the chunk's `_start` plus `maxChunkDurationInSeconds · 1000`,
so (the chunk duration being positive) the remainder starts strictly after
the chunk: consecutive chunks of a length-split cascade have strictly
increasing `_start` values with exactly that spacing. -/
theorem c8_monotone_start (timeNow : ℚ) (script : Script)
    (hD : 0 < (getSettings script).maxChunkDurationInSeconds) :
    ∃ s : ℚ, (runLengthBranch timeNow script).1.start = some s ∧
      (runLengthBranch timeNow script).2.start
        = some (s + (getSettings script).maxChunkDurationInSeconds * 1000) ∧
      s < s + (getSettings script).maxChunkDurationInSeconds * 1000 := by
  refine ⟨_, rfl, rfl, ?_⟩
  have : 0 < (getSettings script).maxChunkDurationInSeconds * 1000 := by positivity
  linarith

/-- Witness for C8 at `timeNow = 0` and the concrete pause script (default
settings, chunk duration 240). -/
theorem c8_witness :
    ∃ s : ℚ, (runLengthBranch 0 exScriptPause).1.start = some s ∧
      (runLengthBranch 0 exScriptPause).2.start
        = some (s + (getSettings exScriptPause).maxChunkDurationInSeconds * 1000) ∧
      s < s + (getSettings exScriptPause).maxChunkDurationInSeconds * 1000 :=
  c8_monotone_start 0 exScriptPause (by decide)

end ClaimC8

section ClaimC7

/-- Counterexample to claim C7 as stated: at `phaseLength = remainingDuration`
(here both 5) the popped phase is moved whole — the chunk receives the phase
unchanged and the remainder is empty — rather than being split (a split would
leave the nonempty remainder `[(splitPhaseByLength p 5).2]`). -/
theorem c7_counterexample :
    phaseLength exConst15 = 5 ∧
    (splitScriptByLength exScriptConst 5).1.phases = [exConst15] ∧
    (splitScriptByLength exScriptConst 5).2.phases = [] ∧
    [(splitPhaseByLength exConst15 5).2] ≠ ([] : List Phase) := by
  refine ⟨rfl, by decide, by decide, by decide⟩

/-- Claim C7 (amended): in `splitScriptByLength`'s loop a popped phase is
moved whole exactly when `phaseLength ≤ remainingDuration` (equality
included), and split only when `phaseLength > remainingDuration` strictly. -/
theorem c7_move_whole_policy (p : Phase) (rest : List Phase) (k : ℚ)
    (hk : 0 < k) :
    (phaseLength p ≤ k →
      splitPhasesByLength k (p :: rest)
        = (p :: (splitPhasesByLength (k - phaseLength p) rest).1,
           (splitPhasesByLength (k - phaseLength p) rest).2)) ∧
    (k < phaseLength p →
      splitPhasesByLength k (p :: rest)
        = ([(splitPhaseByLength p k).1], (splitPhaseByLength p k).2 :: rest)) := by
  constructor
  · intro h
    simp only [splitPhasesByLength, if_pos hk, if_neg (not_lt.mpr h)]
  · intro h
    simp only [splitPhasesByLength, if_pos hk, if_pos h]

/-- Witness for C7 (amended) at the concrete five-second phase with budget 5
(the equality case) and budget 3 (the split case). -/
theorem c7_witness :
    ((phaseLength exConst15 ≤ 5 →
      splitPhasesByLength 5 [exConst15]
        = (exConst15 :: (splitPhasesByLength (5 - phaseLength exConst15) []).1,
           (splitPhasesByLength (5 - phaseLength exConst15) []).2)) ∧
    (5 < phaseLength exConst15 →
      splitPhasesByLength 5 [exConst15]
        = ([(splitPhaseByLength exConst15 5).1],
           (splitPhaseByLength exConst15 5).2 :: []))) :=
  c7_move_whole_policy exConst15 [] 5 (by norm_num)

end ClaimC7

section ClaimC6

/-- Claim C6 is right about the intent and the code is wrong: a script whose
first phase (index 0) has neither `duration` nor `pause` should be rejected,
but `scriptLength` signals the offending index as `-1 * 0 = 0` and
`validScript` only treats strictly negative returns as invalid, so the script
is accepted (`validScript` returns no message, i.e. `true`). -/
theorem c6_validator_misses_index_zero :
    phaseLength exNoLengthPhase < 0 ∧
    scriptLength exScriptNoLength = 0 ∧
    validScript exScriptNoLength = none := by
  refine ⟨by norm_num [phaseLength, exNoLengthPhase], ?_, ?_⟩
  · norm_num [scriptLength, scriptLengthAux, phaseLength, exScriptNoLength, exNoLengthPhase]
  · norm_num [validScript, getSettings, exScriptNoLength, exNoLengthPhase, scriptLength,
      scriptLengthAux, scriptWidth, scriptWidthAux, phaseLength, phaseWidth, isInt,
      MAX_CHUNK_DURATION_IN_SECONDS, MAX_SCRIPT_DURATION_IN_SECONDS,
      MAX_SCRIPT_REQUESTS_PER_SECOND]

end ClaimC6

section ClaimC3

lemma splitPhaseByLength_len (p : Phase) (k : ℚ) (h : 0 ≤ phaseLength p) :
    phaseLength (splitPhaseByLength p k).1 = k ∧
    phaseLength (splitPhaseByLength p k).2 = phaseLength p - k := by
  unfold splitPhaseByLength
  rcases hd : p.duration with _ | d
  · rcases hp : p.pause with _ | q
    · exfalso
      simp [phaseLength, hd, hp] at h
      linarith
    · simp [phaseLength, hd, hp]
  · simp [phaseLength, hd]

lemma splitPhasesByLength_nonpos (k : ℚ) (hk : k ≤ 0) (ps : List Phase) :
    splitPhasesByLength k ps = ([], ps) := by
  cases ps with
  | nil => rfl
  | cons p rest => simp [splitPhasesByLength, not_lt.mpr hk]

lemma splitPhasesByLength_spec (ps : List Phase) :
    ∀ k, (∀ p ∈ ps, 0 < phaseLength p) → 0 < k → k < sumLen ps →
      sumLen (splitPhasesByLength k ps).1 = k ∧
      sumLen (splitPhasesByLength k ps).2 = sumLen ps - k ∧
      (∀ q ∈ (splitPhasesByLength k ps).1, 0 ≤ phaseLength q) ∧
      (∀ q ∈ (splitPhasesByLength k ps).2, 0 ≤ phaseLength q) := by
  induction ps with
  | nil =>
    intro k _ hk hlt
    exfalso
    simp [sumLen] at hlt
    linarith
  | cons p rest ih =>
    intro k hpos hk hlt
    have hp : 0 < phaseLength p := hpos p (List.mem_cons_self p rest)
    have hrest : ∀ q ∈ rest, 0 < phaseLength q :=
      fun q hq => hpos q (List.mem_cons_of_mem p hq)
    have hsum : sumLen (p :: rest) = phaseLength p + sumLen rest := by
      simp [sumLen]
    have hcons : ∀ (q : Phase) (qs : List Phase),
        sumLen (q :: qs) = phaseLength q + sumLen qs := by
      intro q qs; simp [sumLen]
    simp only [splitPhasesByLength, if_pos hk]
    by_cases hsplit : phaseLength p > k
    · rw [if_pos hsplit]
      obtain ⟨h1, h2⟩ := splitPhaseByLength_len p k (le_of_lt hp)
      refine ⟨?_, ?_, ?_, ?_⟩
      · rw [hcons, h1]
        simp [sumLen]
      · rw [hcons, h2, hsum]
        ring
      · intro q hq
        simp only [List.mem_singleton] at hq
        rw [hq, h1]
        linarith
      · intro q hq
        rcases List.mem_cons.mp hq with h | h
        · rw [h, h2]; linarith
        · exact le_of_lt (hrest q h)
    · rw [if_neg hsplit]
      push_neg at hsplit
      rcases eq_or_lt_of_le (sub_nonneg.mpr hsplit) with heq | hpos'
      · have hz : k - phaseLength p = 0 := heq.symm
        rw [hz, splitPhasesByLength_nonpos 0 le_rfl rest]
        have hkp : k = phaseLength p := by linarith
        refine ⟨?_, ?_, ?_, ?_⟩
        · rw [hcons]
          simp [sumLen, hkp]
        · rw [hsum, hkp]
          ring
        · intro q hq
          rcases List.mem_cons.mp hq with h | h
          · rw [h]; linarith
          · simp at h
        · exact fun q hq => le_of_lt (hrest q hq)
      · have hlt' : k - phaseLength p < sumLen rest := by
          rw [hsum] at hlt; linarith
        obtain ⟨h1, h2, h3, h4⟩ := ih (k - phaseLength p) hrest hpos' hlt'
        refine ⟨?_, ?_, ?_, h4⟩
        · rw [hcons, h1]
          ring
        · rw [h2, hsum]
          ring
        · intro q hq
          rcases List.mem_cons.mp hq with h | h
          · rw [h]; linarith
          · exact h3 q h

/-- Claim C3: for every valid script (every phase has positive length) and
every `k` strictly between 0 and the total duration, `splitScriptByLength`
produces a chunk of total duration exactly `k` and the chunk and remainder
durations sum to the script's total duration. -/
theorem c3_length_preservation (s : Script) (k : ℚ) (h : validPhases s = true)
    (hk : 0 < k) (hlt : k < scriptLength s) :
    scriptLength (splitScriptByLength s k).1 = k ∧
    scriptLength (splitScriptByLength s k).1 + scriptLength (splitScriptByLength s k).2
      = scriptLength s := by
  have hpos : ∀ p ∈ s.phases, 0 < phaseLength p := by
    intro p hp
    exact validPhase_len_pos p (by
      have := List.all_eq_true.mp h p hp
      simpa using this)
  have hL : scriptLength s = sumLen s.phases := by
    unfold scriptLength
    rw [scriptLengthAux_eq_sum s.phases 0 0 (fun p hp => le_of_lt (hpos p hp))]
    ring
  rw [hL] at hlt
  obtain ⟨h1, h2, h3, h4⟩ := splitPhasesByLength_spec s.phases k hpos hk hlt
  have hc : scriptLength (splitScriptByLength s k).1
      = sumLen (splitPhasesByLength k s.phases).1 := by
    unfold scriptLength splitScriptByLength
    rw [scriptLengthAux_eq_sum _ 0 0 h3]
    ring
  have hr : scriptLength (splitScriptByLength s k).2
      = sumLen (splitPhasesByLength k s.phases).2 := by
    unfold scriptLength splitScriptByLength
    rw [scriptLengthAux_eq_sum _ 0 0 h4]
    ring
  rw [hc, hr, h1, h2, hL]
  exact ⟨rfl, by ring⟩

/-- Witness for C3: the two-phase script `[{arrivalRate: 1, duration: 5},
{pause: 1}]` split at `k = 11/2`. -/
theorem c3_witness :
    scriptLength (splitScriptByLength ⟨[exConst15, exPause1], none, none, none⟩ (11/2)).1
      = 11/2 ∧
    scriptLength (splitScriptByLength ⟨[exConst15, exPause1], none, none, none⟩ (11/2)).1
      + scriptLength (splitScriptByLength ⟨[exConst15, exPause1], none, none, none⟩ (11/2)).2
      = scriptLength ⟨[exConst15, exPause1], none, none, none⟩ :=
  c3_length_preservation ⟨[exConst15, exPause1], none, none, none⟩ (11/2)
    (by norm_num [validPhases, validPhase, exConst15, exPause1])
    (by norm_num)
    (by norm_num [scriptLength, scriptLengthAux, phaseLength, exConst15, exPause1])

end ClaimC3

section ClaimC5

/-- A valid phase that avoids the two lossy width-split normalizations: ramp
phases must have a strictly positive start rate (the `addRamp` floor would
otherwise rewrite it to 1) and a target different from the start (the
degenerate-ramp normalization would otherwise delete `rampTo`), and count
phases must carry an integral `arrivalCount` (the chunk count is produced by
`Math.floor`). -/
def tameWidthPhase (p : Phase) : Bool :=
  match p with
  | ⟨none, some a, none, some d, none⟩ => 0 ≤ a ∧ 0 < d
  | ⟨none, some a, some r, some d, none⟩ => 0 < a ∧ 0 ≤ r ∧ 0 < d ∧ r ≠ a
  | ⟨some n, none, none, some d, none⟩ => 0 ≤ n ∧ 0 < d ∧ isInt n
  | ⟨none, none, none, none, some q⟩ => 0 < q
  | _ => false

lemma tame_implies_valid (p : Phase) (h : tameWidthPhase p = true) :
    validPhase p = true := by
  rcases p with ⟨ac, ar, rt, d, ps⟩
  cases ac <;> cases ar <;> cases rt <;> cases d <;> cases ps <;>
    simp_all [tameWidthPhase, validPhase] <;> linarith

lemma isInt_floor_eq (q : ℚ) (h : isInt q = true) : ((⌊q⌋ : ℤ) : ℚ) = q := by
  have hden : q.den = 1 := by simpa [isInt] using h
  have hnum : ((q.num : ℤ) : ℚ) = q := by
    rw [← Rat.den_eq_one_iff]
    exact hden
  rw [← hnum, Int.floor_intCast]

lemma splitPhaseByWidth_small (p : Phase) (c : ℚ) (h : tameWidthPhase p = true)
    (hw : phaseWidth p ≤ c) :
    ∃ rem, splitPhaseByWidth p c = some ([p], [rem]) ∧ phaseWidth rem = 0 := by
  rcases p with ⟨ac, ar, rt, d, ps⟩
  cases ac <;> cases ar <;> cases rt <;> cases d <;> cases ps <;>
    simp only [tameWidthPhase] at h <;>
    try exact absurd h Bool.false_ne_true
  case none.some.none.some.none a d =>
    -- constant-rate phase
    have hha : phaseWidth ⟨none, some a, none, some d, none⟩ = a := rfl
    rw [hha] at hw
    refine ⟨addPause ⟨none, some a, none, some d, none⟩ d, ?_, rfl⟩
    simp [splitPhaseByWidth, splitPhaseByWidthMut, normalizeWidthPhase,
      splitPhaseByWidthCore, not_lt.mpr hw, addArrivalRate, copyOverwrite]
  case none.some.some.some.none a r d =>
    -- ramp phase
    obtain ⟨ha, hr0, hd0, hne⟩ := of_decide_eq_true h
    have hne' : r ≠ a := by simpa using hne
    have hha : phaseWidth ⟨none, some a, some r, some d, none⟩ = max a r := rfl
    rw [hha] at hw
    refine ⟨addPause ⟨none, some a, some r, some d, none⟩ d, ?_, rfl⟩
    simp [splitPhaseByWidth, splitPhaseByWidthMut, normalizeWidthPhase, hne',
      splitPhaseByWidthCore, hw, addRamp, copyOverwrite, ha]
  case some.none.none.some.none n d =>
    -- count-over-duration phase
    obtain ⟨hn, hd, hint⟩ := of_decide_eq_true h
    have hha : phaseWidth ⟨some n, none, none, some d, none⟩ = n / d := rfl
    rw [hha] at hw
    by_cases hge : n / d ≥ c
    · have heq : n / d = c := le_antisymm hw hge
      have hcd : c * d = n := by
        rw [← heq]
        field_simp
      have hfloor : ((⌊c * d⌋ : ℤ) : ℚ) = n := by
        rw [hcd]
        exact isInt_floor_eq n hint
      refine ⟨addArrivalCount ⟨some n, none, none, some d, none⟩ (n - n) d, ?_, ?_⟩
      · simp [splitPhaseByWidth, splitPhaseByWidthMut, normalizeWidthPhase,
          splitPhaseByWidthCore, hge, addArrivalCount, copyOverwrite, hfloor]
      · simp [addArrivalCount, copyOverwrite, phaseWidth]
    · refine ⟨addPause ⟨some n, none, none, some d, none⟩ d, ?_, rfl⟩
      simp [splitPhaseByWidth, splitPhaseByWidthMut, normalizeWidthPhase,
        splitPhaseByWidthCore, hge, addArrivalCount, copyOverwrite]
  case none.none.none.none.some q =>
    -- pause phase
    exact ⟨addPause ⟨none, none, none, none, some q⟩ q, rfl, rfl⟩

lemma splitPhasesByWidth_tame (c : ℚ) (ps : List Phase)
    (h : ∀ p ∈ ps, tameWidthPhase p = true ∧ phaseWidth p ≤ c) :
    ∃ rems, splitPhasesByWidth c ps = some (ps, rems) ∧
      ∀ q ∈ rems, phaseWidth q = 0 := by
  induction ps with
  | nil => exact ⟨[], rfl, by simp⟩
  | cons p rest ih =>
    obtain ⟨hp, hpw⟩ := h p (List.mem_cons_self p rest)
    obtain ⟨rem, hsplit, hrem⟩ := splitPhaseByWidth_small p c hp hpw
    obtain ⟨rems, hrest, hrems⟩ := ih (fun q hq => h q (List.mem_cons_of_mem p hq))
    refine ⟨rem :: rems, ?_, ?_⟩
    · simp only [splitPhasesByWidth, hsplit, hrest]
      simp
    · intro q hq
      rcases List.mem_cons.mp hq with hq | hq
      · rw [hq]; exact hrem
      · exact hrems q hq

/-- Counterexample to claim C5 as stated: the valid one-phase script with the
ramp `{arrivalRate: 0, rampTo: 5, duration: 10}` has width 5 ≤ 10, yet the
chunk produced by `splitScriptByWidth` at ceiling 10 is not structurally equal
to the script — `addRamp` floors the zero start rate to 1. -/
theorem c5_counterexample :
    validPhases ⟨[⟨none, some 0, some 5, some 10, none⟩], none, none, none⟩ = true ∧
    scriptWidth ⟨[⟨none, some 0, some 5, some 10, none⟩], none, none, none⟩ ≤ 10 ∧
    (splitScriptByWidth ⟨[⟨none, some 0, some 5, some 10, none⟩], none, none, none⟩ 10).map
        (fun pr => pr.1.phases)
      ≠ some [⟨none, some 0, some 5, some 10, none⟩] := by
  refine ⟨by decide, ?_, ?_⟩
  · norm_num [scriptWidth, scriptWidthAux, phaseWidth]
  · norm_num [splitScriptByWidth, splitPhasesByWidth, splitPhaseByWidth,
      splitPhaseByWidthMut, normalizeWidthPhase, splitPhaseByWidthCore,
      addRamp, addPause, copyOverwrite]

/-- Claim C5 (amended): for every valid script all of whose ramp phases have a
strictly positive start rate and a target distinct from it, and all of whose
count phases carry an integral count, if `scriptWidth(S) ≤ c` then
width-splitting returns a chunk whose phases are structurally equal to those
of `S` and a remainder of width 0. -/
theorem c5_idempotence_amended (s : Script) (c : ℚ)
    (h : s.phases.all tameWidthPhase = true) (hw : scriptWidth s ≤ c) :
    ∃ pr, splitScriptByWidth s c = some pr ∧
      pr.1.phases = s.phases ∧ scriptWidth pr.2 = 0 := by
  have htame : ∀ p ∈ s.phases, tameWidthPhase p = true := by
    intro p hp
    simpa using List.all_eq_true.mp h p hp
  have hnn : ∀ p ∈ s.phases, 0 ≤ phaseWidth p :=
    fun p hp => validPhase_width_nonneg p (tame_implies_valid p (htame p hp))
  have hwfold : scriptWidth s = foldWidth s.phases 0 := by
    unfold scriptWidth
    exact scriptWidthAux_eq_fold s.phases 0 0 hnn
  have hple : ∀ p ∈ s.phases, phaseWidth p ≤ c := by
    intro p hp
    calc phaseWidth p ≤ foldWidth s.phases 0 := foldWidth_mem_le s.phases 0 p hp
    _ = scriptWidth s := hwfold.symm
    _ ≤ c := hw
  obtain ⟨rems, hrems, hzero⟩ :=
    splitPhasesByWidth_tame c s.phases (fun p hp => ⟨htame p hp, hple p hp⟩)
  refine ⟨({ s with phases := s.phases }, { s with phases := rems }), ?_, rfl, ?_⟩
  · unfold splitScriptByWidth
    rw [hrems]
    rfl
  · show scriptWidthAux rems 0 0 = 0
    rw [scriptWidthAux_eq_fold rems 0 0 (fun q hq => le_of_eq (hzero q hq).symm)]
    refine le_antisymm ?_ (le_foldWidth_acc rems 0)
    exact foldWidth_le rems 0 0 le_rfl (fun q hq => le_of_eq (hzero q hq))

/-- Witness for C5 (amended) at the one-phase constant script
`[{arrivalRate: 1, duration: 5}]` and ceiling 3. -/
theorem c5_witness :
    ∃ pr, splitScriptByWidth exScriptConst 3 = some pr ∧
      pr.1.phases = exScriptConst.phases ∧ scriptWidth pr.2 = 0 :=
  c5_idempotence_amended exScriptConst 3
    (by decide)
    (by norm_num [scriptWidth, scriptWidthAux, phaseWidth, exScriptConst, exConst15])

end ClaimC5

section ClaimC2

lemma abc_ramp (a r d : ℚ) : abc (0, a) (d, r) = ⟨r - a, -d, -(d * a)⟩ := by
  simp only [abc, Line.mk.injEq]
  refine ⟨by ring, by ring, by ring⟩

lemma abc_horiz (x c : ℚ) : abc (0, c) (x, c) = ⟨0, -x, -(x * c)⟩ := by
  simp only [abc, Line.mk.injEq]
  refine ⟨by ring, by ring, by ring⟩

lemma intersect_lines (a r d c : ℚ) (hne : r - a ≠ 0) (hd : d ≠ 0) :
    intersect ⟨r - a, -d, -(d * a)⟩ ⟨0, -d, -(d * c)⟩
      = some (((round (d * (c - a) / (r - a)) : ℤ) : ℚ), ((round c : ℤ) : ℚ)) := by
  show (if (r - a) * -d - 0 * -d = 0 then none
    else some (((round ((-d * -(d * a) - -d * -(d * c)) / ((r - a) * -d - 0 * -d)) : ℤ) : ℚ),
      ((round (((r - a) * -(d * c) - 0 * -(d * a)) / ((r - a) * -d - 0 * -d)) : ℤ) : ℚ))) = _
  have hdet : (r - a) * -d - 0 * -d ≠ 0 := by
    simp only [zero_mul, sub_zero]
    exact mul_ne_zero hne (neg_ne_zero.mpr hd)
  rw [if_neg hdet]
  have hx : (-d * -(d * a) - -d * -(d * c)) / ((r - a) * -d - 0 * -d)
      = d * (c - a) / (r - a) := by
    rw [div_eq_div_iff hdet hne]
    ring
  have hy : ((r - a) * -(d * c) - 0 * -(d * a)) / ((r - a) * -d - 0 * -d) = c := by
    rw [div_eq_iff hdet]
    ring
  rw [hx, hy]

lemma intersection_ramp (a r d c : ℚ) (hne : r - a ≠ 0) (hd : d ≠ 0) :
    intersection ⟨none, some a, some r, some d, none⟩ c
      = some (((round (d * (c - a) / (r - a)) : ℤ) : ℚ), ((round c : ℤ) : ℚ)) := by
  show intersect (abc (0, a) (d, r)) (abc (0, c) (d, c)) = _
  rw [abc_ramp, abc_horiz]
  exact intersect_lines a r d c hne hd

lemma width_const_hi (a dd c : ℚ) (h : a > c) :
    splitPhaseByWidth ⟨none, some a, none, some dd, none⟩ c
      = some ([addArrivalRate ⟨none, some a, none, some dd, none⟩ c dd],
              [addArrivalRate ⟨none, some a, none, some dd, none⟩ (a - c) dd]) := by
  simp [splitPhaseByWidth, splitPhaseByWidthMut, normalizeWidthPhase,
    splitPhaseByWidthCore, h]

lemma width_const_lo (a dd c : ℚ) (h : ¬a > c) :
    splitPhaseByWidth ⟨none, some a, none, some dd, none⟩ c
      = some ([addArrivalRate ⟨none, some a, none, some dd, none⟩ a dd],
              [addPause ⟨none, some a, none, some dd, none⟩ dd]) := by
  simp [splitPhaseByWidth, splitPhaseByWidthMut, normalizeWidthPhase,
    splitPhaseByWidthCore, h]

lemma width_ramp_degenerate (a r dd c : ℚ) (h : r = a) :
    splitPhaseByWidth ⟨none, some a, some r, some dd, none⟩ c
      = splitPhaseByWidth ⟨none, some a, none, some dd, none⟩ c := by
  simp [splitPhaseByWidth, splitPhaseByWidthMut, normalizeWidthPhase, h]

lemma width_ramp_fits (a r dd c : ℚ) (hne : r ≠ a) (hmx : max a r ≤ c) :
    splitPhaseByWidth ⟨none, some a, some r, some dd, none⟩ c
      = some ([addRamp ⟨none, some a, some r, some dd, none⟩ a r dd],
              [addPause ⟨none, some a, some r, some dd, none⟩ dd]) := by
  simp [splitPhaseByWidth, splitPhaseByWidthMut, normalizeWidthPhase,
    splitPhaseByWidthCore, hne, hmx]

lemma width_ramp_exceeds (a r dd c : ℚ) (hne : r ≠ a) (hmx : ¬max a r ≤ c)
    (hmn : min a r ≥ c) :
    splitPhaseByWidth ⟨none, some a, some r, some dd, none⟩ c
      = some ([addArrivalRate ⟨none, some a, some r, some dd, none⟩ c dd],
              [addRamp ⟨none, some a, some r, some dd, none⟩ (a - c) (r - c) dd]) := by
  simp [splitPhaseByWidth, splitPhaseByWidthMut, normalizeWidthPhase,
    splitPhaseByWidthCore, hne, hmx, hmn]

lemma width_ramp_cross_up (a r dd c : ℚ) (hne : r ≠ a) (hmx : ¬max a r ≤ c)
    (hmn : ¬min a r ≥ c) (hdir : a < r) (hd : dd ≠ 0) :
    splitPhaseByWidth ⟨none, some a, some r, some dd, none⟩ c
      = some ([addRamp ⟨none, some a, some r, some dd, none⟩ a c
                 ((round (dd * (c - a) / (r - a)) : ℤ) : ℚ),
               addArrivalRate ⟨none, some a, some r, some dd, none⟩ c
                 (dd - ((round (dd * (c - a) / (r - a)) : ℤ) : ℚ))],
              [addPause ⟨none, some a, some r, some dd, none⟩
                 ((round (dd * (c - a) / (r - a)) : ℤ) : ℚ),
               addRamp ⟨none, some a, some r, some dd, none⟩ 1 (r - c)
                 (dd - ((round (dd * (c - a) / (r - a)) : ℤ) : ℚ))]) := by
  have hx := intersection_ramp a r dd c (sub_ne_zero.mpr hne) hd
  simp [splitPhaseByWidth, splitPhaseByWidthMut, normalizeWidthPhase,
    splitPhaseByWidthCore, hne, hmx, hmn, hx, hdir]

lemma width_ramp_cross_down (a r dd c : ℚ) (hne : r ≠ a) (hmx : ¬max a r ≤ c)
    (hmn : ¬min a r ≥ c) (hdir : ¬a < r) (hd : dd ≠ 0) :
    splitPhaseByWidth ⟨none, some a, some r, some dd, none⟩ c
      = some ([addArrivalRate ⟨none, some a, some r, some dd, none⟩ c
                 ((round (dd * (c - a) / (r - a)) : ℤ) : ℚ),
               addRamp ⟨none, some a, some r, some dd, none⟩ c r
                 (dd - ((round (dd * (c - a) / (r - a)) : ℤ) : ℚ))],
              [addRamp ⟨none, some a, some r, some dd, none⟩ (a - c) 1
                 ((round (dd * (c - a) / (r - a)) : ℤ) : ℚ),
               addPause ⟨none, some a, some r, some dd, none⟩
                 (dd - ((round (dd * (c - a) / (r - a)) : ℤ) : ℚ))]) := by
  have hx := intersection_ramp a r dd c (sub_ne_zero.mpr hne) hd
  simp [splitPhaseByWidth, splitPhaseByWidthMut, normalizeWidthPhase,
    splitPhaseByWidthCore, hne, hmx, hmn, hx, hdir]

lemma width_count_hi (n dd c : ℚ) (h : n / dd ≥ c) :
    splitPhaseByWidth ⟨some n, none, none, some dd, none⟩ c
      = some ([addArrivalCount ⟨some n, none, none, some dd, none⟩ ((⌊c * dd⌋ : ℤ) : ℚ) dd],
              [addArrivalCount ⟨some n, none, none, some dd, none⟩
                 (n - ((⌊c * dd⌋ : ℤ) : ℚ)) dd]) := by
  simp [splitPhaseByWidth, splitPhaseByWidthMut, normalizeWidthPhase,
    splitPhaseByWidthCore, h]

lemma width_count_lo (n dd c : ℚ) (h : ¬n / dd ≥ c) :
    splitPhaseByWidth ⟨some n, none, none, some dd, none⟩ c
      = some ([addArrivalCount ⟨some n, none, none, some dd, none⟩ n dd],
              [addPause ⟨some n, none, none, some dd, none⟩ dd]) := by
  simp [splitPhaseByWidth, splitPhaseByWidthMut, normalizeWidthPhase,
    splitPhaseByWidthCore, h]

lemma width_pause (q c : ℚ) :
    splitPhaseByWidth ⟨none, none, none, none, some q⟩ c
      = some ([addPause ⟨none, none, none, none, some q⟩ q],
              [addPause ⟨none, none, none, none, some q⟩ q]) := rfl

lemma splitPhaseByWidth_chunk_bound (p : Phase) (c : ℚ)
    (hv : validPhase p = true) (hc : 1 ≤ c) :
    ∃ parts, splitPhaseByWidth p c = some parts ∧
      ∀ q ∈ parts.1, 0 ≤ phaseWidth q ∧ phaseWidth q ≤ c := by
  have hc0 : (0 : ℚ) < c := lt_of_lt_of_le one_pos hc
  have hconst : ∀ a dd : ℚ, 0 ≤ a → 0 < dd →
      ∃ parts, splitPhaseByWidth ⟨none, some a, none, some dd, none⟩ c = some parts ∧
        ∀ q ∈ parts.1, 0 ≤ phaseWidth q ∧ phaseWidth q ≤ c := by
    intro a dd ha hd
    by_cases hgt : a > c
    · refine ⟨_, width_const_hi a dd c hgt, ?_⟩
      intro q hq
      simp only [List.mem_singleton] at hq
      subst hq
      constructor <;> simp [addArrivalRate, copyOverwrite, phaseWidth] <;> linarith
    · refine ⟨_, width_const_lo a dd c hgt, ?_⟩
      intro q hq
      simp only [List.mem_singleton] at hq
      subst hq
      constructor <;> simp [addArrivalRate, copyOverwrite, phaseWidth] <;> linarith
  rcases p with ⟨ac, ar, rt, d, ps⟩
  cases ac <;> cases ar <;> cases rt <;> cases d <;> cases ps <;>
    simp only [validPhase] at hv <;>
    try exact absurd hv Bool.false_ne_true
  case none.some.none.some.none a dd =>
    obtain ⟨ha, hd⟩ := of_decide_eq_true hv
    exact hconst a dd ha hd
  case none.some.some.some.none a r dd =>
    -- ramp phase
    obtain ⟨ha, hr, hd⟩ := of_decide_eq_true hv
    by_cases heq : r = a
    · obtain ⟨parts, hsp, hb⟩ := hconst a dd ha hd
      exact ⟨parts, (width_ramp_degenerate a r dd c heq).trans hsp, hb⟩
    · by_cases hmx : max a r ≤ c
      · refine ⟨_, width_ramp_fits a r dd c heq hmx, ?_⟩
        intro q hq
        simp only [List.mem_singleton] at hq
        subst hq
        have h1 : (if a > 0 then a else 1) ≤ c := by
          have := le_trans (le_max_left a r) hmx
          split <;> linarith
        have h2 : (0:ℚ) ≤ if a > 0 then a else 1 := by
          split <;> linarith
        have h3 : r ≤ c := le_trans (le_max_right a r) hmx
        constructor <;>
          simp only [addRamp, copyOverwrite, phaseWidth, le_max_iff, max_le_iff]
        · left; exact h2
        · exact ⟨h1, h3⟩
      · by_cases hmn : min a r ≥ c
        · refine ⟨_, width_ramp_exceeds a r dd c heq hmx hmn, ?_⟩
          intro q hq
          simp only [List.mem_singleton] at hq
          subst hq
          constructor <;> simp [addArrivalRate, copyOverwrite, phaseWidth] <;> linarith
        · by_cases hdir : a < r
          · refine ⟨_, width_ramp_cross_up a r dd c heq hmx hmn hdir (ne_of_gt hd), ?_⟩
            intro q hq
            have hac : a < c := by
              have hmin : min a r = a := min_eq_left (le_of_lt hdir)
              have := not_le.mp hmn
              linarith [hmin ▸ this]
            rcases List.mem_cons.mp hq with hq | hq
            · subst hq
              have h1 : (if a > 0 then a else 1) ≤ c := by
                split <;> linarith
              have h2 : (0:ℚ) ≤ if a > 0 then a else 1 := by
                split <;> linarith
              constructor <;>
                simp only [addRamp, copyOverwrite, phaseWidth, le_max_iff, max_le_iff]
              · left; exact h2
              · exact ⟨h1, le_rfl⟩
            · simp only [List.mem_singleton] at hq
              subst hq
              constructor <;> simp [addArrivalRate, copyOverwrite, phaseWidth] <;> linarith
          · refine ⟨_, width_ramp_cross_down a r dd c heq hmx hmn hdir (ne_of_gt hd), ?_⟩
            intro q hq
            have hrc : r < c := by
              have hmin : min a r = r := min_eq_right (not_lt.mp hdir)
              have := not_le.mp hmn
              linarith [hmin ▸ this]
            rcases List.mem_cons.mp hq with hq | hq
            · subst hq
              constructor <;> simp [addArrivalRate, copyOverwrite, phaseWidth] <;> linarith
            · simp only [List.mem_singleton] at hq
              subst hq
              have h1 : (if c > 0 then c else 1) = c := if_pos hc0
              constructor <;>
                simp only [addRamp, copyOverwrite, phaseWidth, h1, le_max_iff, max_le_iff]
              · left; linarith
              · exact ⟨le_rfl, le_of_lt hrc⟩
  case some.none.none.some.none n dd =>
    -- count-over-duration phase
    obtain ⟨hn, hd⟩ := of_decide_eq_true hv
    by_cases hge : n / dd ≥ c
    · refine ⟨_, width_count_hi n dd c hge, ?_⟩
      intro q hq
      simp only [List.mem_singleton] at hq
      subst hq
      have hfl : ((⌊c * dd⌋ : ℤ) : ℚ) ≤ c * dd := Int.floor_le _
      have hf0 : (0 : ℚ) ≤ ((⌊c * dd⌋ : ℤ) : ℚ) := by
        have : (0 : ℚ) ≤ c * dd := by positivity
        exact_mod_cast Int.floor_nonneg.mpr this
      constructor <;> simp only [addArrivalCount, copyOverwrite, phaseWidth]
      · positivity
      · rw [div_le_iff hd]
        linarith
    · refine ⟨_, width_count_lo n dd c hge, ?_⟩
      intro q hq
      simp only [List.mem_singleton] at hq
      subst hq
      constructor <;> simp only [addArrivalCount, copyOverwrite, phaseWidth]
      · positivity
      · linarith [not_le.mp hge]
  case none.none.none.none.some q0 =>
    -- pause phase
    refine ⟨_, width_pause q0 c, ?_⟩
    intro q hq
    simp only [List.mem_singleton] at hq
    subst hq
    constructor <;> simp [addPause, copyOverwrite, phaseWidth]
    linarith

lemma splitPhasesByWidth_chunk_bound (c : ℚ) (ps : List Phase)
    (h : ∀ p ∈ ps, validPhase p = true) (hc : 1 ≤ c) :
    ∃ parts, splitPhasesByWidth c ps = some parts ∧
      ∀ q ∈ parts.1, 0 ≤ phaseWidth q ∧ phaseWidth q ≤ c := by
  induction ps with
  | nil => exact ⟨([], []), rfl, by simp⟩
  | cons p rest ih =>
    obtain ⟨parts, hsp, hb⟩ :=
      splitPhaseByWidth_chunk_bound p c (h p (List.mem_cons_self p rest)) hc
    obtain ⟨acc, hrest, hbacc⟩ := ih (fun q hq => h q (List.mem_cons_of_mem p hq))
    refine ⟨(parts.1 ++ acc.1, parts.2 ++ acc.2), ?_, ?_⟩
    · simp only [splitPhasesByWidth, hsp, hrest]
    · intro q hq
      rcases List.mem_append.mp hq with hq | hq
      · exact hb q hq
      · exact hbacc q hq

/-- Counterexample to claim C2 as stated: with the valid one-phase script
`[{arrivalRate: 0, rampTo: 1/4, duration: 10}]` and the positive ceiling
`c = 1/4`, the chunk produced by `splitScriptByWidth` has width 1 > c,
because `addRamp` floors the chunk's zero start rate up to 1. -/
theorem c2_counterexample :
    validPhases ⟨[⟨none, some 0, some (1/4), some 10, none⟩], none, none, none⟩ = true ∧
    (0 : ℚ) < 1/4 ∧
    (splitScriptByWidth ⟨[⟨none, some 0, some (1/4), some 10, none⟩], none, none, none⟩
        (1/4)).map (fun pr => scriptWidth pr.1) = some 1 ∧
    ¬((1 : ℚ) ≤ 1/4) := by
  refine ⟨by norm_num [validPhases, validPhase], by norm_num, ?_, by norm_num⟩
  norm_num [splitScriptByWidth, splitPhasesByWidth, splitPhaseByWidth,
    splitPhaseByWidthMut, normalizeWidthPhase, splitPhaseByWidthCore,
    addRamp, addPause, copyOverwrite, scriptWidth, scriptWidthAux, phaseWidth]

/-- Claim C2 (amended): for every valid script `S` and every ceiling `c ≥ 1`,
the chunk produced by `splitScriptByWidth(S, c)` satisfies
`scriptWidth(chunk) ≤ c`.  (For fractional ceilings `0 < c < 1` the bound
fails because `addRamp` floors ramp start rates up to 1.) -/
theorem c2_width_bound (s : Script) (c : ℚ)
    (h : validPhases s = true) (hc : 1 ≤ c) :
    ∃ pr, splitScriptByWidth s c = some pr ∧ scriptWidth pr.1 ≤ c := by
  have hvp : ∀ p ∈ s.phases, validPhase p = true := by
    intro p hp
    simpa using List.all_eq_true.mp h p hp
  obtain ⟨parts, hsp, hb⟩ := splitPhasesByWidth_chunk_bound c s.phases hvp hc
  refine ⟨({ s with phases := parts.1 }, { s with phases := parts.2 }), ?_, ?_⟩
  · unfold splitScriptByWidth
    rw [hsp]
    rfl
  · show scriptWidthAux parts.1 0 0 ≤ c
    rw [scriptWidthAux_eq_fold parts.1 0 0 (fun q hq => (hb q hq).1)]
    exact foldWidth_le parts.1 0 c (le_trans zero_le_one hc) (fun q hq => (hb q hq).2)

/-- Witness for C2 (amended) at the one-phase constant script and `c = 1`. -/
theorem c2_witness :
    ∃ pr, splitScriptByWidth exScriptConst 1 = some pr ∧ scriptWidth pr.1 ≤ 1 :=
  c2_width_bound exScriptConst 1 (by decide) le_rfl

end ClaimC2

section IntHelpers

lemma isInt_iff (q : ℚ) : isInt q = true ↔ ∃ z : ℤ, q = (z : ℚ) := by
  constructor
  · intro h
    refine ⟨q.num, ?_⟩
    have := (Rat.den_eq_one_iff q).mp (by simpa [isInt] using h)
    exact this.symm
  · rintro ⟨z, rfl⟩
    simp [isInt, Rat.den_intCast]

lemma isInt_intCast (z : ℤ) : isInt ((z : ℤ) : ℚ) = true :=
  (isInt_iff _).mpr ⟨z, rfl⟩

lemma isInt_sub (a b : ℚ) (ha : isInt a = true) (hb : isInt b = true) :
    isInt (a - b) = true := by
  obtain ⟨x, rfl⟩ := (isInt_iff a).mp ha
  obtain ⟨y, rfl⟩ := (isInt_iff b).mp hb
  exact (isInt_iff _).mpr ⟨x - y, by push_cast; ring⟩

lemma isInt_mul (a b : ℚ) (ha : isInt a = true) (hb : isInt b = true) :
    isInt (a * b) = true := by
  obtain ⟨x, rfl⟩ := (isInt_iff a).mp ha
  obtain ⟨y, rfl⟩ := (isInt_iff b).mp hb
  exact (isInt_iff _).mpr ⟨x * y, by push_cast; ring⟩

lemma isInt_one : isInt (1 : ℚ) = true := by
  simpa using isInt_intCast 1

lemma isInt_zero : isInt (0 : ℚ) = true := by
  simpa using isInt_intCast 0

lemma int_gap (a b : ℚ) (ha : isInt a = true) (hb : isInt b = true) (h : b < a) :
    b + 1 ≤ a := by
  obtain ⟨x, rfl⟩ := (isInt_iff a).mp ha
  obtain ⟨y, rfl⟩ := (isInt_iff b).mp hb
  have hxy : y < x := by exact_mod_cast h
  have : y + 1 ≤ x := hxy
  calc ((y : ℚ) + 1) = ((y + 1 : ℤ) : ℚ) := by push_cast; ring
  _ ≤ (x : ℚ) := by exact_mod_cast this

lemma isInt_floor_self (q : ℚ) (h : isInt q = true) : ((⌊q⌋ : ℤ) : ℚ) = q := by
  obtain ⟨z, rfl⟩ := (isInt_iff q).mp h
  rw [Int.floor_intCast]

lemma round_mono (x y : ℚ) (h : x ≤ y) : round x ≤ round y := by
  rw [round_eq, round_eq]
  exact Int.floor_le_floor (by linarith)

lemma round_nonneg (x : ℚ) (h : 0 ≤ x) : 0 ≤ round x := by
  have := round_mono 0 x h
  simpa using this

lemma round_le_int (x : ℚ) (z : ℤ) (h : x ≤ (z : ℚ)) : round x ≤ z := by
  have := round_mono x (z : ℚ) h
  simpa using this

lemma round_ge_imp (x : ℚ) (z : ℤ) (h : z ≤ round x) : (z : ℚ) ≤ x + 1/2 := by
  rw [round_eq] at h
  have h1 : ((z : ℤ) : ℚ) ≤ ((⌊x + 1/2⌋ : ℤ) : ℚ) := by exact_mod_cast h
  calc (z : ℚ) ≤ ((⌊x + 1/2⌋ : ℤ) : ℚ) := h1
  _ ≤ x + 1/2 := Int.floor_le _

lemma max_sub_zero_distrib (x y c : ℚ) :
    max (max x y - c) 0 = max (max (x - c) 0) (max (y - c) 0) := by
  rcases le_total x y with h | h
  · rw [max_eq_right h]
    exact (max_eq_right (max_le_max (by linarith : x - c ≤ y - c) le_rfl)).symm
  · rw [max_eq_left h]
    exact (max_eq_left (max_le_max (by linarith : y - c ≤ x - c) le_rfl)).symm

lemma foldWidth_factor (ps : List Phase) :
    ∀ acc, 0 ≤ acc → (∀ p ∈ ps, 0 ≤ phaseWidth p) →
      foldWidth ps acc = max acc (foldWidth ps 0) := by
  induction ps with
  | nil =>
    intro acc hacc _
    simp only [foldWidth, List.foldl_nil]
    exact (max_eq_left hacc).symm
  | cons p rest ih =>
    intro acc hacc h
    have hp : 0 ≤ phaseWidth p := h p (List.mem_cons_self p rest)
    have hrest : ∀ q ∈ rest, 0 ≤ phaseWidth q := fun q hq => h q (List.mem_cons_of_mem p hq)
    have h0p : (0 : ℚ) ≤ max acc (phaseWidth p) := le_trans hacc (le_max_left _ _)
    have h0p' : (0 : ℚ) ≤ max 0 (phaseWidth p) := le_max_left _ _
    simp only [foldWidth, List.foldl_cons] at *
    rw [ih (max acc (phaseWidth p)) h0p hrest, ih (max 0 (phaseWidth p)) h0p' hrest]
    rw [max_eq_right hp]
    rw [← max_assoc]

lemma foldWidth_append_max (ps qs : List Phase) (hps : ∀ p ∈ ps, 0 ≤ phaseWidth p)
    (hqs : ∀ p ∈ qs, 0 ≤ phaseWidth p) :
    foldWidth (ps ++ qs) 0 = max (foldWidth ps 0) (foldWidth qs 0) := by
  rw [foldWidth_append]
  exact foldWidth_factor qs (foldWidth ps 0) (le_foldWidth_acc ps 0) hqs

end IntHelpers

section ClaimC4

/-- The loop invariant of the width branch for integer scripts: every phase is
one of the four shapes with integral, non-negative fields; count phases have
duration at least 1; and ramp phases either have duration at least 1 or fit
entirely under the ceiling `c` (remainder phases of zero duration produced by
a rounded intersection always fit, so the invariant is preserved). -/
def wphase (c : ℚ) (p : Phase) : Bool :=
  match p with
  | ⟨none, some a, none, some d, none⟩ =>
    isInt a ∧ 0 ≤ a ∧ isInt d ∧ 0 ≤ d
  | ⟨none, some a, some r, some d, none⟩ =>
    isInt a ∧ isInt r ∧ isInt d ∧ 0 ≤ a ∧ 0 ≤ r ∧ 0 ≤ d ∧ (1 ≤ d ∨ max a r ≤ c)
  | ⟨some n, none, none, some d, none⟩ =>
    isInt n ∧ 0 ≤ n ∧ isInt d ∧ 1 ≤ d
  | ⟨none, none, none, none, some q⟩ =>
    isInt q ∧ 0 ≤ q
  | _ => false

lemma wphase_width_nonneg (c : ℚ) (p : Phase) (h : wphase c p = true) :
    0 ≤ phaseWidth p := by
  rcases p with ⟨ac, ar, rt, d, ps⟩
  cases ac <;> cases ar <;> cases rt <;> cases d <;> cases ps <;>
    simp only [wphase] at h <;>
    try exact absurd h Bool.false_ne_true
  case none.some.none.some.none a dd =>
    obtain ⟨_, ha, _, _⟩ := of_decide_eq_true h
    simpa [phaseWidth] using ha
  case none.some.some.some.none a r dd =>
    obtain ⟨_, _, _, ha, _⟩ := of_decide_eq_true h
    simp only [phaseWidth]
    exact le_max_of_le_left ha
  case some.none.none.some.none n dd =>
    obtain ⟨_, hn, _, hd⟩ := of_decide_eq_true h
    simp only [phaseWidth]
    exact div_nonneg hn (by linarith)
  case none.none.none.none.some q =>
    simp [phaseWidth]

lemma round_le_imp (x : ℚ) (z : ℤ) (h : round x ≤ z) : x < (z : ℚ) + 1/2 := by
  rw [round_eq] at h
  have h1 : x + 1/2 < ((⌊x + 1/2⌋ : ℤ) : ℚ) + 1 := Int.lt_floor_add_one _
  have h2 : ((⌊x + 1/2⌋ : ℤ) : ℚ) ≤ (z : ℚ) := by exact_mod_cast h
  linarith

lemma splitPhaseByWidth_evolve (p : Phase) (c : ℚ) (hcI : isInt c = true)
    (hc1 : 1 ≤ c) (h : wphase c p = true) :
    ∃ parts, splitPhaseByWidth p c = some parts ∧
      (∀ q ∈ parts.2, wphase c q = true) ∧
      foldWidth parts.2 0 = max (phaseWidth p - c) 0 := by
  have hc0 : (0 : ℚ) < c := lt_of_lt_of_le one_pos hc1
  have hconstCase : ∀ a dd : ℚ, isInt a = true → 0 ≤ a → isInt dd = true → 0 ≤ dd →
      ∃ parts, splitPhaseByWidth ⟨none, some a, none, some dd, none⟩ c = some parts ∧
        (∀ q ∈ parts.2, wphase c q = true) ∧
        foldWidth parts.2 0 = max (a - c) 0 := by
    intro a dd haI ha hdI hd
    by_cases hgt : a > c
    · refine ⟨_, width_const_hi a dd c hgt, ?_, ?_⟩
      · intro q hq
        simp only [List.mem_singleton] at hq
        subst hq
        simp only [addArrivalRate, copyOverwrite, wphase, decide_eq_true_eq]
        exact ⟨isInt_sub a c haI hcI, by linarith, hdI, hd⟩
      · have hw : phaseWidth (addArrivalRate ⟨none, some a, none, some dd, none⟩ (a - c) dd)
            = a - c := rfl
        simp only [foldWidth, List.foldl_cons, List.foldl_nil, hw]
        rw [max_comm]
    · refine ⟨_, width_const_lo a dd c hgt, ?_, ?_⟩
      · intro q hq
        simp only [List.mem_singleton] at hq
        subst hq
        simp only [addPause, copyOverwrite, wphase, decide_eq_true_eq]
        exact ⟨hdI, hd⟩
      · have hw : phaseWidth (addPause ⟨none, some a, none, some dd, none⟩ dd) = 0 := rfl
        simp only [foldWidth, List.foldl_cons, List.foldl_nil, hw]
        rw [max_self, max_eq_right (by linarith : a - c ≤ 0)]
  rcases p with ⟨ac, ar, rt, d, ps⟩
  cases ac <;> cases ar <;> cases rt <;> cases d <;> cases ps <;>
    simp only [wphase] at h <;>
    try exact absurd h Bool.false_ne_true
  case none.some.none.some.none a dd =>
    obtain ⟨haI, ha, hdI, hd⟩ := of_decide_eq_true h
    have hw : phaseWidth ⟨none, some a, none, some dd, none⟩ = a := rfl
    rw [hw]
    exact hconstCase a dd haI ha hdI hd
  case none.some.some.some.none a r dd =>
    obtain ⟨haI, hrI, hdI, ha, hr, hd, hinv⟩ := of_decide_eq_true h
    have hw : phaseWidth ⟨none, some a, some r, some dd, none⟩ = max a r := rfl
    rw [hw]
    by_cases heq : r = a
    · subst heq
      obtain ⟨parts, hsp, hrest⟩ := hconstCase r dd haI ha hdI hd
      rw [max_self]
      exact ⟨parts, (width_ramp_degenerate r r dd c rfl).trans hsp, hrest⟩
    · by_cases hmx : max a r ≤ c
      · refine ⟨_, width_ramp_fits a r dd c heq hmx, ?_, ?_⟩
        · intro q hq
          simp only [List.mem_singleton] at hq
          subst hq
          simp only [addPause, copyOverwrite, wphase, decide_eq_true_eq]
          exact ⟨hdI, hd⟩
        · have hwq : phaseWidth (addPause ⟨none, some a, some r, some dd, none⟩ dd) = 0 := rfl
          simp only [foldWidth, List.foldl_cons, List.foldl_nil, hwq]
          rw [max_self, max_eq_right (by linarith : max a r - c ≤ 0)]
      · have hmax : c < max a r := not_le.mp hmx
        have hdd1 : 1 ≤ dd := hinv.resolve_right hmx
        by_cases hmn : min a r ≥ c
        · have hac : c ≤ a := le_trans hmn (min_le_left a r)
          have hrc : c ≤ r := le_trans hmn (min_le_right a r)
          refine ⟨_, width_ramp_exceeds a r dd c heq hmx hmn, ?_, ?_⟩
          · intro q hq
            simp only [List.mem_singleton] at hq
            subst hq
            simp only [addRamp, copyOverwrite, wphase, decide_eq_true_eq]
            refine ⟨?_, isInt_sub r c hrI hcI, hdI, ?_, by linarith, hd, Or.inl hdd1⟩
            · split
              · exact isInt_sub a c haI hcI
              · exact isInt_one
            · split <;> linarith
          · have hwq : phaseWidth (addRamp ⟨none, some a, some r, some dd, none⟩
                (a - c) (r - c) dd) = max (if a - c > 0 then a - c else 1) (r - c) := rfl
            simp only [foldWidth, List.foldl_cons, List.foldl_nil, hwq]
            have hkey : max (if a - c > 0 then a - c else 1) (r - c) = max a r - c := by
              by_cases hac' : a - c > 0
              · rw [if_pos hac', max_sub_sub_right]
              · have haeq : a = c := le_antisymm (by linarith) hac
                rw [if_neg hac']
                have hrgt : c < r := by
                  rcases max_cases a r with ⟨hm, _⟩ | ⟨hm, _⟩
                  · rw [hm] at hmax; linarith [hmax, haeq]
                  · rwa [hm] at hmax
                have hr1 : 1 ≤ r - c := by
                  have := int_gap r c hrI hcI hrgt
                  linarith
                rw [max_eq_right hr1, max_eq_right (by linarith : a ≤ r)]
            rw [hkey]
            have hpos : (0:ℚ) ≤ max a r - c := le_of_lt (by linarith)
            rw [max_eq_right, max_eq_left hpos]
            have h1 : (1:ℚ) ≤ max a r - c := by
              rcases max_cases a r with ⟨hm, _⟩ | ⟨hm, _⟩ <;> rw [hm] at hmax ⊢
              · have := int_gap a c haI hcI hmax; linarith
              · have := int_gap r c hrI hcI hmax; linarith
            linarith
        · -- the ramp crosses the ceiling
          have hdne : dd ≠ 0 := by linarith
          by_cases hdir : a < r
          · -- ramping up
            have hmaxr : max a r = r := max_eq_right (le_of_lt hdir)
            have hrgt : c < r := by rwa [hmaxr] at hmax
            have haltc : a < c := by
              have := not_le.mp hmn
              rwa [min_eq_left (le_of_lt hdir)] at this
            have hra : (0:ℚ) < r - a := by linarith
            set xs : ℚ := dd * (c - a) / (r - a) with hxs
            set z : ℤ := round xs with hz
            have hxs_pos : 0 < xs := by
              apply div_pos _ hra
              nlinarith
            have hxs_lt : xs < dd := by
              rw [hxs, div_lt_iff hra]
              nlinarith
            have hz0 : 0 ≤ z := round_nonneg xs (le_of_lt hxs_pos)
            obtain ⟨w, hw'⟩ := (isInt_iff dd).mp hdI
            have hzw : z ≤ w := by
              rw [hz]
              apply round_le_int
              rw [← hw']
              exact le_of_lt hxs_lt
            have hx0 : (0:ℚ) ≤ (z : ℚ) := by exact_mod_cast hz0
            have hxd : (z : ℚ) ≤ dd := by rw [hw']; exact_mod_cast hzw
            have hr1 : (1:ℚ) ≤ r - c := by
              have := int_gap r c hrI hcI hrgt
              linarith
            refine ⟨_, width_ramp_cross_up a r dd c heq hmx hmn hdir hdne, ?_, ?_⟩
            · intro q hq
              rcases List.mem_cons.mp hq with hq | hq
              · subst hq
                simp only [addPause, copyOverwrite, wphase, decide_eq_true_eq]
                exact ⟨isInt_intCast z, hx0⟩
              · simp only [List.mem_singleton] at hq
                subst hq
                simp only [addRamp, copyOverwrite, wphase, decide_eq_true_eq,
                  if_pos one_pos]
                refine ⟨isInt_one, isInt_sub r c hrI hcI,
                  isInt_sub dd (z:ℚ) hdI (isInt_intCast z), by norm_num, by linarith,
                  by linarith, ?_⟩
                by_cases hlast : 1 ≤ dd - (z : ℚ)
                · exact Or.inl hlast
                · right
                  have hdx0 : dd - (z:ℚ) = 0 := by
                    have hint := isInt_sub dd (z:ℚ) hdI (isInt_intCast z)
                    by_contra hne0
                    have hpos' : 0 < dd - (z:ℚ) :=
                      lt_of_le_of_ne (by linarith) (Ne.symm hne0)
                    have := int_gap (dd - (z:ℚ)) 0 hint isInt_zero hpos'
                    simp at this
                    linarith
                  -- x = dd: the intersection rounded up to the full duration,
                  -- which forces r - c ≤ c
                  have hxdd : (z : ℚ) = dd := by linarith
                  have hge : dd ≤ xs + 1/2 := by
                    have : w ≤ round xs := by
                      rw [← hz]
                      have : (z:ℚ) = (w:ℚ) := by rw [hxdd, hw']
                      exact le_of_eq (by exact_mod_cast this.symm)
                    have := round_ge_imp xs w this
                    rw [← hw'] at this
                    linarith
                  have hrc2 : r - c ≤ c := by
                    by_contra hcon
                    push_neg at hcon
                    have hxsub : xs * (r - a) = dd * (c - a) := by
                      rw [hxs]
                      field_simp
                    nlinarith [hge, hxsub, hra, hc0, hdd1, ha]
                  exact max_le hc1 hrc2
            · have hw1 : phaseWidth (addPause ⟨none, some a, some r, some dd, none⟩
                  (z:ℚ)) = 0 := rfl
              have hw2 : phaseWidth (addRamp ⟨none, some a, some r, some dd, none⟩
                  1 (r - c) (dd - (z:ℚ))) = max 1 (r - c) := by
                simp [addRamp, copyOverwrite, phaseWidth, if_pos one_pos]
              simp only [foldWidth, List.foldl_cons, List.foldl_nil, hw1, hw2]
              rw [max_self, max_eq_right (le_max_of_le_left (by norm_num : (0:ℚ) ≤ 1)),
                max_eq_right hr1, hmaxr,
                max_eq_left (by linarith : (0:ℚ) ≤ r - c)]
          · -- ramping down
            have hmaxa : max a r = a := max_eq_left (not_lt.mp hdir)
            have hagt : c < a := by rwa [hmaxa] at hmax
            have hrltc : r < c := by
              have := not_le.mp hmn
              rwa [min_eq_right (not_lt.mp hdir)] at this
            have har : (0:ℚ) < a - r := by linarith
            have hra_ne : r - a ≠ 0 := sub_ne_zero.mpr heq
            have ha1 : (1:ℚ) ≤ a - c := by
              have := int_gap a c haI hcI hagt
              linarith
            set xs : ℚ := dd * (c - a) / (r - a) with hxs
            have hxs_alt : xs = dd * (a - c) / (a - r) := by
              rw [hxs, div_eq_div_iff hra_ne (by linarith : a - r ≠ 0)]
              ring
            set z : ℤ := round xs with hz
            have hxs_pos : 0 < xs := by
              rw [hxs_alt]
              apply div_pos _ har
              nlinarith
            have hxs_lt : xs < dd := by
              rw [hxs_alt, div_lt_iff har]
              nlinarith
            have hz0 : 0 ≤ z := round_nonneg xs (le_of_lt hxs_pos)
            obtain ⟨w, hw'⟩ := (isInt_iff dd).mp hdI
            have hzw : z ≤ w := by
              rw [hz]
              apply round_le_int
              rw [← hw']
              exact le_of_lt hxs_lt
            have hx0 : (0:ℚ) ≤ (z : ℚ) := by exact_mod_cast hz0
            have hxd : (z : ℚ) ≤ dd := by rw [hw']; exact_mod_cast hzw
            refine ⟨_, width_ramp_cross_down a r dd c heq hmx hmn hdir hdne, ?_, ?_⟩
            · intro q hq
              rcases List.mem_cons.mp hq with hq | hq
              · subst hq
                simp only [addRamp, copyOverwrite, wphase, decide_eq_true_eq,
                  if_pos (by linarith : a - c > 0)]
                refine ⟨isInt_sub a c haI hcI, isInt_one, isInt_intCast z,
                  by linarith, by norm_num, hx0, ?_⟩
                by_cases hfirst : 1 ≤ (z : ℚ)
                · exact Or.inl hfirst
                · right
                  have hz_eq : (z : ℚ) = 0 := by
                    by_contra hne0
                    have hpos' : 0 < (z:ℚ) := lt_of_le_of_ne hx0 (Ne.symm hne0)
                    have := int_gap ((z:ℚ)) 0 (isInt_intCast z) isInt_zero hpos'
                    simp at this
                    linarith
                  -- x = 0: the intersection rounded down to zero, which
                  -- forces a - c ≤ c
                  have hlt : xs < 1/2 := by
                    have hz_le : round xs ≤ 0 := by
                      rw [← hz]
                      exact_mod_cast le_of_eq (by exact_mod_cast hz_eq :
                        (z:ℤ) = (0:ℤ))
                    have := round_le_imp xs 0 hz_le
                    simpa using this
                  have hac2 : a - c ≤ c := by
                    by_contra hcon
                    push_neg at hcon
                    have hxsub : xs * (a - r) = dd * (a - c) := by
                      rw [hxs_alt]
                      field_simp
                    nlinarith [hlt, hxsub, har, hc0, hdd1, hr, ha1]
                  exact max_le hac2 hc1
              · simp only [List.mem_singleton] at hq
                subst hq
                simp only [addPause, copyOverwrite, wphase, decide_eq_true_eq]
                exact ⟨isInt_sub dd (z:ℚ) hdI (isInt_intCast z), by linarith⟩
            · have hw1 : phaseWidth (addRamp ⟨none, some a, some r, some dd, none⟩
                  (a - c) 1 (z:ℚ)) = max (a - c) 1 := by
                simp only [addRamp, copyOverwrite, phaseWidth]
                rw [if_pos (by linarith : a - c > 0)]
              have hw2 : phaseWidth (addPause ⟨none, some a, some r, some dd, none⟩
                  (dd - (z:ℚ))) = 0 := rfl
              simp only [foldWidth, List.foldl_cons, List.foldl_nil, hw1, hw2]
              rw [max_eq_right (le_max_of_le_right (by norm_num : (0:ℚ) ≤ 1)),
                max_eq_left (le_max_of_le_left (by linarith : (0:ℚ) ≤ a - c)),
                max_eq_left ha1, hmaxa,
                max_eq_left (by linarith : (0:ℚ) ≤ a - c)]
  case some.none.none.some.none n dd =>
    obtain ⟨hnI, hn, hdI, hdd1⟩ := of_decide_eq_true h
    have hd : (0:ℚ) < dd := by linarith
    have hw : phaseWidth ⟨some n, none, none, some dd, none⟩ = n / dd := rfl
    rw [hw]
    have hfl : ((⌊c * dd⌋ : ℤ) : ℚ) = c * dd :=
      isInt_floor_self (c * dd) (isInt_mul c dd hcI hdI)
    by_cases hge : n / dd ≥ c
    · have hcd : c * dd ≤ n := by
        rw [ge_iff_le, le_div_iff hd] at hge
        linarith
      refine ⟨_, width_count_hi n dd c hge, ?_, ?_⟩
      · intro q hq
        simp only [List.mem_singleton] at hq
        subst hq
        simp only [addArrivalCount, copyOverwrite, wphase, decide_eq_true_eq]
        refine ⟨?_, ?_, hdI, hdd1⟩
        · rw [hfl]
          exact isInt_sub n (c * dd) hnI (isInt_mul c dd hcI hdI)
        · rw [hfl]; linarith
      · have hwq : phaseWidth (addArrivalCount ⟨some n, none, none, some dd, none⟩
            (n - ((⌊c * dd⌋ : ℤ) : ℚ)) dd) = (n - ((⌊c * dd⌋ : ℤ) : ℚ)) / dd := rfl
        simp only [foldWidth, List.foldl_cons, List.foldl_nil, hwq]
        have hval : (n - ((⌊c * dd⌋ : ℤ) : ℚ)) / dd = n / dd - c := by
          rw [hfl]
          field_simp
          ring
        rw [hval, max_comm]
    · refine ⟨_, width_count_lo n dd c hge, ?_, ?_⟩
      · intro q hq
        simp only [List.mem_singleton] at hq
        subst hq
        simp only [addPause, copyOverwrite, wphase, decide_eq_true_eq]
        exact ⟨hdI, by linarith⟩
      · have hwq : phaseWidth (addPause ⟨some n, none, none, some dd, none⟩ dd) = 0 := rfl
        simp only [foldWidth, List.foldl_cons, List.foldl_nil, hwq]
        rw [max_self, max_eq_right (by linarith [not_le.mp hge] : n / dd - c ≤ 0)]
  case none.none.none.none.some q0 =>
    obtain ⟨hqI, hq0⟩ := of_decide_eq_true h
    have hw : phaseWidth ⟨none, none, none, none, some q0⟩ = 0 := rfl
    rw [hw]
    refine ⟨_, width_pause q0 c, ?_, ?_⟩
    · intro q hq
      simp only [List.mem_singleton] at hq
      subst hq
      simp only [addPause, copyOverwrite, wphase, decide_eq_true_eq]
      exact ⟨hqI, hq0⟩
    · have hwq : phaseWidth (addPause ⟨none, none, none, none, some q0⟩ q0) = 0 := rfl
      simp only [foldWidth, List.foldl_cons, List.foldl_nil, hwq]
      rw [max_self, max_eq_right (by linarith : (0:ℚ) - c ≤ 0)]

lemma splitPhasesByWidth_evolve (c : ℚ) (hcI : isInt c = true) (hc1 : 1 ≤ c)
    (ps : List Phase) (h : ∀ p ∈ ps, wphase c p = true) :
    ∃ parts, splitPhasesByWidth c ps = some parts ∧
      (∀ q ∈ parts.2, wphase c q = true) ∧
      foldWidth parts.2 0 = max (foldWidth ps 0 - c) 0 := by
  have hc0 : (0 : ℚ) < c := lt_of_lt_of_le one_pos hc1
  induction ps with
  | nil =>
    refine ⟨([], []), rfl, by simp, ?_⟩
    have : foldWidth ([] : List Phase) 0 = 0 := rfl
    rw [this]
    exact (max_eq_right (by linarith : (0:ℚ) - c ≤ 0)).symm
  | cons p rest ih =>
    have hp := h p (List.mem_cons_self p rest)
    have hrest : ∀ q ∈ rest, wphase c q = true :=
      fun q hq => h q (List.mem_cons_of_mem p hq)
    obtain ⟨parts, hsp, hwp, hwidth⟩ := splitPhaseByWidth_evolve p c hcI hc1 hp
    obtain ⟨acc, hacc, hwacc, hwidthacc⟩ := ih hrest
    refine ⟨(parts.1 ++ acc.1, parts.2 ++ acc.2), ?_, ?_, ?_⟩
    · simp only [splitPhasesByWidth, hsp, hacc]
    · intro q hq
      rcases List.mem_append.mp hq with hq | hq
      · exact hwp q hq
      · exact hwacc q hq
    · have hnn1 : ∀ q ∈ parts.2, 0 ≤ phaseWidth q :=
        fun q hq => wphase_width_nonneg c q (hwp q hq)
      have hnn2 : ∀ q ∈ acc.2, 0 ≤ phaseWidth q :=
        fun q hq => wphase_width_nonneg c q (hwacc q hq)
      have hnnrest : ∀ q ∈ rest, 0 ≤ phaseWidth q :=
        fun q hq => wphase_width_nonneg c q (hrest q hq)
      have hwp0 : 0 ≤ phaseWidth p := wphase_width_nonneg c p hp
      rw [foldWidth_append_max parts.2 acc.2 hnn1 hnn2, hwidth, hwidthacc,
        ← max_sub_zero_distrib]
      have hcons : foldWidth (p :: rest) 0 = max (phaseWidth p) (foldWidth rest 0) := by
        show foldWidth rest (max 0 (phaseWidth p)) = _
        rw [foldWidth_factor rest (max 0 (phaseWidth p)) (le_max_left _ _) hnnrest,
          max_eq_right hwp0]
      rw [hcons]

lemma splitScriptByWidth_evolve (s : Script) (c : ℚ) (hcI : isInt c = true)
    (hc1 : 1 ≤ c) (h : ∀ p ∈ s.phases, wphase c p = true) :
    ∃ pr, splitScriptByWidth s c = some pr ∧
      (∀ q ∈ pr.2.phases, wphase c q = true) ∧
      scriptWidth pr.2 = max (scriptWidth s - c) 0 := by
  obtain ⟨parts, hsp, hwp, hwidth⟩ := splitPhasesByWidth_evolve c hcI hc1 s.phases h
  refine ⟨({ s with phases := parts.1 }, { s with phases := parts.2 }), ?_, hwp, ?_⟩
  · unfold splitScriptByWidth
    rw [hsp]
    rfl
  · have h1 : scriptWidth { s with phases := parts.2 } = foldWidth parts.2 0 :=
      scriptWidthAux_eq_fold parts.2 0 0
        (fun q hq => wphase_width_nonneg c q (hwp q hq))
    have h2 : scriptWidth s = foldWidth s.phases 0 :=
      scriptWidthAux_eq_fold s.phases 0 0
        (fun q hq => wphase_width_nonneg c q (h q hq))
    rw [h1, h2, hwidth]

lemma widthLoop_exact (c : ℚ) (hcI : isInt c = true) (hc1 : 1 ≤ c) :
    ∀ n : ℕ, ∀ s : Script, (∀ p ∈ s.phases, wphase c p = true) →
      0 < scriptWidth s → (⌈scriptWidth s / c⌉).toNat ≤ n →
      widthLoop c n s = some ((⌈scriptWidth s / c⌉).toNat) := by
  have hc0 : (0 : ℚ) < c := lt_of_lt_of_le one_pos hc1
  intro n
  induction n with
  | zero =>
    intro s hs hpos hle
    exfalso
    have h1 : 0 < ⌈scriptWidth s / c⌉ := Int.ceil_pos.mpr (div_pos hpos hc0)
    omega
  | succ n ih =>
    intro s hs hpos hle
    obtain ⟨pr, hsp, hwp, hwid⟩ := splitScriptByWidth_evolve s c hcI hc1 hs
    simp only [widthLoop, hsp]
    by_cases hWc : scriptWidth s ≤ c
    · have hw0 : scriptWidth pr.2 = 0 := by
        rw [hwid]
        exact max_eq_right (by linarith)
      rw [if_neg (by rw [hw0]; exact lt_irrefl 0)]
      have hceil : ⌈scriptWidth s / c⌉ = 1 := by
        refine le_antisymm ?_ (Int.ceil_pos.mpr (div_pos hpos hc0))
        rw [Int.ceil_le]
        push_cast
        rw [div_le_one hc0]
        exact hWc
      rw [hceil]
      rfl
    · push_neg at hWc
      have hw' : scriptWidth pr.2 = scriptWidth s - c := by
        rw [hwid]
        exact max_eq_left (by linarith)
      have hpos' : 0 < scriptWidth pr.2 := by rw [hw']; linarith
      rw [if_pos hpos']
      have hdiv : (scriptWidth s - c) / c = scriptWidth s / c - 1 := by
        rw [sub_div, div_self (ne_of_gt hc0)]
      have hceil : ⌈scriptWidth pr.2 / c⌉ = ⌈scriptWidth s / c⌉ - 1 := by
        rw [hw', hdiv]
        exact_mod_cast Int.ceil_sub_int (scriptWidth s / c) 1
      have h1 : 0 < ⌈scriptWidth pr.2 / c⌉ := Int.ceil_pos.mpr (div_pos hpos' hc0)
      have hle' : (⌈scriptWidth pr.2 / c⌉).toNat ≤ n := by omega
      rw [ih pr.2 hwp hpos' hle']
      simp only [Option.map_some']
      congr 1
      omega

/-- Counterexample to claim C4 as stated: the script
`{config.phases: [{arrivalCount: 9, duration: 0.9}], _split: {maxChunkRequestsPerSecond: 5}}`
passes the validator, has total duration 0.9 ≤ 240 and width 10 > 5, and
`toComplete` is set to `ceil(10/5) = 2`; but the width-split do-while loop
dispatches 3 chunks (it does not finish within 2 iterations), because
`Math.floor(5 · 0.9) = 4 < 4.5` leaves the remainder wider than width − 5. -/
theorem c4_counterexample :
    validScript ⟨[⟨some 9, none, none, some (9/10), none⟩],
        some { maxChunkRequestsPerSecond := some 5 }, none, none⟩ = none ∧
    scriptLength ⟨[⟨some 9, none, none, some (9/10), none⟩],
        some { maxChunkRequestsPerSecond := some 5 }, none, none⟩ ≤ 240 ∧
    scriptWidth ⟨[⟨some 9, none, none, some (9/10), none⟩],
        some { maxChunkRequestsPerSecond := some 5 }, none, none⟩ = 10 ∧
    (5 : ℚ) < 10 ∧
    widthToComplete 10 5 = 2 ∧
    widthLoop 5 2 ⟨[⟨some 9, none, none, some (9/10), none⟩],
        some { maxChunkRequestsPerSecond := some 5 }, none, none⟩ = none ∧
    widthLoop 5 3 ⟨[⟨some 9, none, none, some (9/10), none⟩],
        some { maxChunkRequestsPerSecond := some 5 }, none, none⟩ = some 3 := by
  refine ⟨?_, ?_, ?_, by norm_num, ?_, ?_, ?_⟩
  · norm_num [validScript, getSettings, truthyOr, scriptLength, scriptLengthAux,
      scriptWidth, scriptWidthAux, phaseLength, phaseWidth, isInt,
      MAX_CHUNK_DURATION_IN_SECONDS, MAX_SCRIPT_DURATION_IN_SECONDS,
      MAX_SCRIPT_REQUESTS_PER_SECOND]
  · norm_num [scriptLength, scriptLengthAux, phaseLength]
  · norm_num [scriptWidth, scriptWidthAux, phaseWidth]
  · norm_num [widthToComplete]
  · norm_num [widthLoop, splitScriptByWidth, splitPhasesByWidth, splitPhaseByWidth,
      splitPhaseByWidthMut, normalizeWidthPhase, splitPhaseByWidthCore,
      addArrivalCount, addPause, copyOverwrite, scriptWidth, scriptWidthAux, phaseWidth,
      Int.floor_eq_iff]
  · norm_num [widthLoop, splitScriptByWidth, splitPhasesByWidth, splitPhaseByWidth,
      splitPhaseByWidthMut, normalizeWidthPhase, splitPhaseByWidthCore,
      addArrivalCount, addPause, copyOverwrite, scriptWidth, scriptWidthAux, phaseWidth,
      Int.floor_eq_iff]

/-- Claim C4 (amended): for every integer-valued valid script (fields of every
phase integral and non-negative, count phases with duration ≥ 1) whose width
`W` exceeds the integral ceiling `c = maxChunkRequestsPerSecond ≥ 1`, the
orchestrator's width-split do-while loop terminates after exactly
`ceil(W / c)` iterations — the value assigned to `toComplete` — so exactly
that many chunks are dispatched via `invokeSelf` and the completion counter
drains to exactly zero.  (As stated, over all validator-accepted scripts, the
claim fails: fractional durations make `Math.floor(c · duration)` lose count,
see the counterexample.) -/
theorem c4_width_branch_amended (s : Script) (c : ℚ) (hcI : isInt c = true)
    (hc1 : 1 ≤ c) (h : s.phases.all (wphase c) = true) (hW : c < scriptWidth s) :
    widthLoop c ((widthToComplete (scriptWidth s) c).toNat) s
      = some ((widthToComplete (scriptWidth s) c).toNat) := by
  have hc0 : (0 : ℚ) < c := lt_of_lt_of_le one_pos hc1
  have hs : ∀ p ∈ s.phases, wphase c p = true := by
    intro p hp
    simpa using List.all_eq_true.mp h p hp
  exact widthLoop_exact c hcI hc1 _ s hs (lt_trans hc0 hW) le_rfl

/-- Witness for C4 (amended): the spec's scenario S3 — one phase
`{arrivalRate: 100, duration: 60}` with ceiling 25 — runs the loop for
exactly `ceil(100/25) = 4` iterations. -/
theorem c4_witness :
    widthLoop 25 ((widthToComplete
        (scriptWidth ⟨[⟨none, some 100, none, some 60, none⟩], none, none, none⟩) 25).toNat)
        ⟨[⟨none, some 100, none, some 60, none⟩], none, none, none⟩
      = some ((widthToComplete
        (scriptWidth ⟨[⟨none, some 100, none, some 60, none⟩], none, none, none⟩) 25).toNat) :=
  c4_width_branch_amended ⟨[⟨none, some 100, none, some 60, none⟩], none, none, none⟩ 25
    (by norm_num [isInt])
    (by norm_num)
    (by norm_num [List.all, wphase, isInt])
    (by norm_num [scriptWidth, scriptWidthAux, phaseWidth])

end ClaimC4

section ClaimC1

lemma listRate_cons (q : Phase) (rest : List Phase) (t : ℚ) :
    listRate (q :: rest) t
      = if t < phaseLength q then phaseRate q t else listRate rest (t - phaseLength q) :=
  rfl

/-- Exactness of the rounded ramp-ceiling intersection: whenever
`splitPhaseByWidth` would hit the crossing case, the rounded intersection
abscissa coincides with the exact one. -/
def rampExactCross (c : ℚ) (p : Phase) : Prop :=
  match p with
  | ⟨none, some a, some r, some d, none⟩ =>
    r ≠ a → min a r < c → c < max a r →
      ((round (d * (c - a) / (r - a)) : ℤ) : ℚ) = d * (c - a) / (r - a)
  | _ => True

lemma c1_cross_up (a r dd c t : ℚ) (ha : 0 ≤ a) (hd : 0 < dd)
    (hac : a < c) (hcr : c < r) (ht0 : 0 ≤ t) (ht : t < dd)
    (hx_eq : ((round (dd * (c - a) / (r - a)) : ℤ) : ℚ) = dd * (c - a) / (r - a)) :
    ∃ parts, splitPhaseByWidth ⟨none, some a, some r, some dd, none⟩ c = some parts ∧
      0 ≤ listRate parts.1 t + listRate parts.2 t
        - phaseRate ⟨none, some a, some r, some dd, none⟩ t ∧
      listRate parts.1 t + listRate parts.2 t
        - phaseRate ⟨none, some a, some r, some dd, none⟩ t ≤ 1 := by
  have hne : r ≠ a := by linarith
  have hdir : a < r := by linarith
  have hmx : ¬max a r ≤ c := by
    rw [max_eq_right (le_of_lt hdir)]
    linarith
  have hmn : ¬min a r ≥ c := by
    rw [min_eq_left (le_of_lt hdir)]
    linarith
  have hra : (0:ℚ) < r - a := by linarith
  set x : ℚ := dd * (c - a) / (r - a) with hxdef
  have hx_pos : 0 < x := by
    apply div_pos _ hra
    nlinarith
  have hx_lt : x < dd := by
    rw [hxdef, div_lt_iff hra]
    nlinarith
  have hxr : x * (r - a) = dd * (c - a) := div_mul_cancel₀ _ (ne_of_gt hra)
  have heval := width_ramp_cross_up a r dd c hne hmx hmn hdir (ne_of_gt hd)
  rw [hx_eq] at heval
  refine ⟨_, heval, ?_⟩
  have hR : phaseRate ⟨none, some a, some r, some dd, none⟩ t = a + (r - a) * t / dd := rfl
  have hL1 : phaseLength (addRamp ⟨none, some a, some r, some dd, none⟩ a c x) = x := rfl
  have hL2 : phaseLength (addArrivalRate ⟨none, some a, some r, some dd, none⟩ c (dd - x))
      = dd - x := rfl
  have hL3 : phaseLength (addPause ⟨none, some a, some r, some dd, none⟩ x) = x := rfl
  have hL4 : phaseLength (addRamp ⟨none, some a, some r, some dd, none⟩ 1 (r - c) (dd - x))
      = dd - x := rfl
  have hR2 : phaseRate (addArrivalRate ⟨none, some a, some r, some dd, none⟩ c (dd - x))
      (t - x) = c := rfl
  have hR3 : phaseRate (addPause ⟨none, some a, some r, some dd, none⟩ x) t = 0 := rfl
  by_cases htx : t < x
  · -- before the crossing: chunk ramp plus silent remainder
    have hc1 : listRate [addRamp ⟨none, some a, some r, some dd, none⟩ a c x,
        addArrivalRate ⟨none, some a, some r, some dd, none⟩ c (dd - x)] t
        = (if a > 0 then a else 1) + (c - (if a > 0 then a else 1)) * t / x := by
      rw [listRate_cons, hL1, if_pos htx]
      rfl
    have hc2 : listRate [addPause ⟨none, some a, some r, some dd, none⟩ x,
        addRamp ⟨none, some a, some r, some dd, none⟩ 1 (r - c) (dd - x)] t = 0 := by
      rw [listRate_cons, hL3, if_pos htx]
      rfl
    rw [hc1, hc2, hR]
    have hrw : (r - a) * t / dd = (c - a) * t / x := by
      rw [div_eq_div_iff (ne_of_gt hd) (ne_of_gt hx_pos)]
      linear_combination t * hxr
    rw [hrw]
    by_cases hap : a > 0
    · rw [if_pos hap]
      have : a + (c - a) * t / x + 0 - (a + (c - a) * t / x) = 0 := by ring
      rw [this]
      norm_num
    · have ha0 : a = 0 := le_antisymm (not_lt.mp hap) ha
      rw [if_neg hap, ha0]
      have hkey : 1 + (c - 1) * t / x + 0 - (0 + (c - 0) * t / x) = 1 - t / x := by
        field_simp
        ring
      rw [hkey]
      constructor
      · have : t / x < 1 := (div_lt_one hx_pos).mpr htx
        linarith
      · have : 0 ≤ t / x := div_nonneg ht0 (le_of_lt hx_pos)
        linarith
  · -- after the crossing: constant chunk plus floored remainder ramp
    have hsx : t - x < dd - x := by linarith
    have hc1 : listRate [addRamp ⟨none, some a, some r, some dd, none⟩ a c x,
        addArrivalRate ⟨none, some a, some r, some dd, none⟩ c (dd - x)] t = c := by
      rw [listRate_cons, hL1, if_neg htx, listRate_cons, hL2, if_pos hsx, hR2]
    have hc2 : listRate [addPause ⟨none, some a, some r, some dd, none⟩ x,
        addRamp ⟨none, some a, some r, some dd, none⟩ 1 (r - c) (dd - x)] t
        = 1 + (r - c - 1) * (t - x) / (dd - x) := by
      rw [listRate_cons, hL3, if_neg htx, listRate_cons, hL4, if_pos hsx]
      rfl
    rw [hc1, hc2, hR]
    have hddx : (0:ℚ) < dd - x := by linarith
    have hd' : dd ≠ 0 := ne_of_gt hd
    have hddx' : dd - x ≠ 0 := ne_of_gt hddx
    have horig : a + (r - a) * t / dd = c + (r - c) * (t - x) / (dd - x) := by
      field_simp
      linear_combination (dd - t) * hxr
    rw [horig]
    have hkey : c + (1 + (r - c - 1) * (t - x) / (dd - x))
        - (c + (r - c) * (t - x) / (dd - x)) = 1 - (t - x) / (dd - x) := by
      field_simp
      ring
    rw [hkey]
    constructor
    · have : (t - x) / (dd - x) < 1 := (div_lt_one hddx).mpr hsx
      linarith
    · have : 0 ≤ (t - x) / (dd - x) := div_nonneg (by linarith) (le_of_lt hddx)
      linarith

lemma c1_cross_down (a r dd c t : ℚ) (hr : 0 ≤ r) (hd : 0 < dd)
    (hrc : r < c) (hca : c < a) (ht0 : 0 ≤ t) (ht : t < dd)
    (hx_eq : ((round (dd * (c - a) / (r - a)) : ℤ) : ℚ) = dd * (c - a) / (r - a)) :
    ∃ parts, splitPhaseByWidth ⟨none, some a, some r, some dd, none⟩ c = some parts ∧
      0 ≤ listRate parts.1 t + listRate parts.2 t
        - phaseRate ⟨none, some a, some r, some dd, none⟩ t ∧
      listRate parts.1 t + listRate parts.2 t
        - phaseRate ⟨none, some a, some r, some dd, none⟩ t ≤ 1 := by
  have hc0 : (0:ℚ) < c := lt_of_le_of_lt hr hrc
  have hne : r ≠ a := by linarith
  have hdir : ¬a < r := by linarith
  have hmx : ¬max a r ≤ c := by
    rw [max_eq_left (by linarith : r ≤ a)]
    linarith
  have hmn : ¬min a r ≥ c := by
    rw [min_eq_right (by linarith : r ≤ a)]
    linarith
  have hra_ne : r - a ≠ 0 := by intro hcon; linarith [sub_eq_zero.mp hcon]
  have har : (0:ℚ) < a - r := by linarith
  set x : ℚ := dd * (c - a) / (r - a) with hxdef
  have hx_alt : x = dd * (a - c) / (a - r) := by
    rw [hxdef, div_eq_div_iff hra_ne (ne_of_gt har)]
    ring
  have hx_pos : 0 < x := by
    rw [hx_alt]
    apply div_pos _ har
    nlinarith
  have hx_lt : x < dd := by
    rw [hx_alt, div_lt_iff har]
    nlinarith
  have hxr : x * (r - a) = dd * (c - a) := div_mul_cancel₀ _ hra_ne
  have heval := width_ramp_cross_down a r dd c hne hmx hmn hdir (ne_of_gt hd)
  rw [hx_eq] at heval
  refine ⟨_, heval, ?_⟩
  have hR : phaseRate ⟨none, some a, some r, some dd, none⟩ t = a + (r - a) * t / dd := rfl
  have hL1 : phaseLength (addArrivalRate ⟨none, some a, some r, some dd, none⟩ c x) = x := rfl
  have hL2 : phaseLength (addRamp ⟨none, some a, some r, some dd, none⟩ c r (dd - x))
      = dd - x := rfl
  have hL3 : phaseLength (addRamp ⟨none, some a, some r, some dd, none⟩ (a - c) 1 x) = x := rfl
  have hL4 : phaseLength (addPause ⟨none, some a, some r, some dd, none⟩ (dd - x))
      = dd - x := rfl
  have hR1 : phaseRate (addArrivalRate ⟨none, some a, some r, some dd, none⟩ c x) t = c := rfl
  have hR3 : phaseRate (addRamp ⟨none, some a, some r, some dd, none⟩ (a - c) 1 x) t
      = (a - c) + (1 - (a - c)) * t / x := by
    show (if a - c > 0 then a - c else 1) + (1 - (if a - c > 0 then a - c else 1)) * t / x = _
    rw [if_pos (by linarith : a - c > 0)]
  by_cases htx : t < x
  · -- before the crossing: constant chunk plus remainder ramp down to the floor 1
    have hc1 : listRate [addArrivalRate ⟨none, some a, some r, some dd, none⟩ c x,
        addRamp ⟨none, some a, some r, some dd, none⟩ c r (dd - x)] t = c := by
      rw [listRate_cons, hL1, if_pos htx, hR1]
    have hc2 : listRate [addRamp ⟨none, some a, some r, some dd, none⟩ (a - c) 1 x,
        addPause ⟨none, some a, some r, some dd, none⟩ (dd - x)] t
        = (a - c) + (1 - (a - c)) * t / x := by
      rw [listRate_cons, hL3, if_pos htx, hR3]
    rw [hc1, hc2, hR]
    have hrw : (r - a) * t / dd = (c - a) * t / x := by
      rw [div_eq_div_iff (ne_of_gt hd) (ne_of_gt hx_pos)]
      linear_combination t * hxr
    rw [hrw]
    have hkey : c + (a - c + (1 - (a - c)) * t / x) - (a + (c - a) * t / x) = t / x := by
      field_simp
      ring
    rw [hkey]
    constructor
    · exact div_nonneg ht0 (le_of_lt hx_pos)
    · have : t / x < 1 := (div_lt_one hx_pos).mpr htx
      linarith
  · -- after the crossing: the chunk ramp reproduces the curve exactly
    have hsx : t - x < dd - x := by linarith
    have hddx : (0:ℚ) < dd - x := by linarith
    have hR2 : phaseRate (addRamp ⟨none, some a, some r, some dd, none⟩ c r (dd - x)) (t - x)
        = c + (r - c) * (t - x) / (dd - x) := by
      show (if c > 0 then c else 1) + (r - (if c > 0 then c else 1)) * (t - x) / (dd - x) = _
      rw [if_pos hc0]
    have hc1 : listRate [addArrivalRate ⟨none, some a, some r, some dd, none⟩ c x,
        addRamp ⟨none, some a, some r, some dd, none⟩ c r (dd - x)] t
        = c + (r - c) * (t - x) / (dd - x) := by
      rw [listRate_cons, hL1, if_neg htx, listRate_cons, hL2, if_pos hsx, hR2]
    have hc2 : listRate [addRamp ⟨none, some a, some r, some dd, none⟩ (a - c) 1 x,
        addPause ⟨none, some a, some r, some dd, none⟩ (dd - x)] t = 0 := by
      rw [listRate_cons, hL3, if_neg htx, listRate_cons, hL4, if_pos hsx]
      rfl
    rw [hc1, hc2, hR]
    have hd' : dd ≠ 0 := ne_of_gt hd
    have hddx' : dd - x ≠ 0 := ne_of_gt hddx
    have horig : a + (r - a) * t / dd = c + (r - c) * (t - x) / (dd - x) := by
      field_simp
      linear_combination (dd - t) * hxr
    rw [← horig]
    have : a + (r - a) * t / dd + 0 - (a + (r - a) * t / dd) = 0 := by ring
    rw [this]
    norm_num

/-- Claim C1 (amended): for every phase `p` of one of the four shapes, every
positive ceiling `c`, and every time `t ∈ [0, duration(p))`, provided that in
the ramp-crossing case the rounded intersection abscissa is exact, the
sub-phase lists produced by `splitPhaseByWidth(p, c)` satisfy
`rate(chunk, t) + rate(remainder, t) - rate(p, t) ∈ [0, 1]`; the sum
overshoots the original curve by at most one unit (the `addRamp` floor of 1),
never undershoots it.  (As stated — error at most one unit for every phase
and ceiling — the claim is false: when the intersection abscissa is rounded,
a steep ramp magnifies the rounding into an error above 2, see the
counterexample.) -/
theorem c1_width_preservation_amended (p : Phase) (c t : ℚ)
    (hv : validPhase p = true) (hc : 0 < c) (hex : rampExactCross c p)
    (ht0 : 0 ≤ t) (htlen : t < phaseLength p) :
    ∃ parts, splitPhaseByWidth p c = some parts ∧
      0 ≤ listRate parts.1 t + listRate parts.2 t - phaseRate p t ∧
      listRate parts.1 t + listRate parts.2 t - phaseRate p t ≤ 1 := by
  have hconstCase : ∀ a dd : ℚ, t < dd →
      ∃ parts, splitPhaseByWidth ⟨none, some a, none, some dd, none⟩ c = some parts ∧
        listRate parts.1 t + listRate parts.2 t = a := by
    intro a dd htdd
    by_cases hgt : a > c
    · refine ⟨_, width_const_hi a dd c hgt, ?_⟩
      rw [listRate_cons, listRate_cons]
      have hA : phaseLength (addArrivalRate ⟨none, some a, none, some dd, none⟩ c dd)
          = dd := rfl
      have hB : phaseLength (addArrivalRate ⟨none, some a, none, some dd, none⟩ (a - c) dd)
          = dd := rfl
      rw [hA, hB, if_pos htdd, if_pos htdd]
      show c + (a - c) = a
      ring
    · refine ⟨_, width_const_lo a dd c hgt, ?_⟩
      rw [listRate_cons, listRate_cons]
      have hA : phaseLength (addArrivalRate ⟨none, some a, none, some dd, none⟩ a dd)
          = dd := rfl
      have hB : phaseLength (addPause ⟨none, some a, none, some dd, none⟩ dd) = dd := rfl
      rw [hA, hB, if_pos htdd, if_pos htdd]
      show a + 0 = a
      ring
  rcases p with ⟨ac, ar, rt, d, ps⟩
  cases ac <;> cases ar <;> cases rt <;> cases d <;> cases ps <;>
    simp only [validPhase] at hv <;>
    try exact absurd hv Bool.false_ne_true
  case none.some.none.some.none a dd =>
    -- constant-rate phase
    have htdd : t < dd := htlen
    obtain ⟨parts, hsp, hsum⟩ := hconstCase a dd htdd
    have hRp : phaseRate ⟨none, some a, none, some dd, none⟩ t = a := rfl
    refine ⟨parts, hsp, ?_⟩
    rw [hsum, hRp, sub_self]
    norm_num
  case none.some.some.some.none a r dd =>
    -- ramp phase
    obtain ⟨ha, hr, hd⟩ := of_decide_eq_true hv
    have htdd : t < dd := htlen
    simp only [rampExactCross] at hex
    by_cases heq : r = a
    · subst heq
      obtain ⟨parts, hsp, hsum⟩ := hconstCase r dd htdd
      have hRp : phaseRate ⟨none, some r, some r, some dd, none⟩ t = r := by
        show r + (r - r) * t / dd = r
        ring
      refine ⟨parts, (width_ramp_degenerate r r dd c rfl).trans hsp, ?_⟩
      rw [hsum, hRp, sub_self]
      norm_num
    · have hRp : phaseRate ⟨none, some a, some r, some dd, none⟩ t
          = a + (r - a) * t / dd := rfl
      by_cases hmx : max a r ≤ c
      · -- whole ramp fits under the ceiling
        refine ⟨_, width_ramp_fits a r dd c heq hmx, ?_⟩
        have hA : phaseLength (addRamp ⟨none, some a, some r, some dd, none⟩ a r dd)
            = dd := rfl
        have hB : phaseLength (addPause ⟨none, some a, some r, some dd, none⟩ dd)
            = dd := rfl
        have hc1 : listRate [addRamp ⟨none, some a, some r, some dd, none⟩ a r dd] t
            = (if a > 0 then a else 1) + (r - (if a > 0 then a else 1)) * t / dd := by
          rw [listRate_cons, hA, if_pos htdd]
          rfl
        have hc2 : listRate [addPause ⟨none, some a, some r, some dd, none⟩ dd] t = 0 := by
          rw [listRate_cons, hB, if_pos htdd]
          rfl
        rw [hc1, hc2, hRp]
        by_cases hap : a > 0
        · rw [if_pos hap]
          have : a + (r - a) * t / dd + 0 - (a + (r - a) * t / dd) = 0 := by ring
          rw [this]
          norm_num
        · have ha0 : a = 0 := le_antisymm (not_lt.mp hap) ha
          rw [if_neg hap, ha0]
          have hkey : 1 + (r - 1) * t / dd + 0 - (0 + (r - 0) * t / dd)
              = 1 - t / dd := by
            field_simp
            ring
          rw [hkey]
          constructor
          · have : t / dd < 1 := (div_lt_one hd).mpr htdd
            linarith
          · have : 0 ≤ t / dd := div_nonneg ht0 (le_of_lt hd)
            linarith
      · by_cases hmn : min a r ≥ c
        · -- whole ramp above the ceiling
          have hac : c ≤ a := le_trans hmn (min_le_left a r)
          refine ⟨_, width_ramp_exceeds a r dd c heq hmx hmn, ?_⟩
          have hA : phaseLength (addArrivalRate ⟨none, some a, some r, some dd, none⟩ c dd)
              = dd := rfl
          have hB : phaseLength (addRamp ⟨none, some a, some r, some dd, none⟩
              (a - c) (r - c) dd) = dd := rfl
          have hc1 : listRate [addArrivalRate ⟨none, some a, some r, some dd, none⟩ c dd] t
              = c := by
            rw [listRate_cons, hA, if_pos htdd]
            rfl
          have hc2 : listRate [addRamp ⟨none, some a, some r, some dd, none⟩
              (a - c) (r - c) dd] t
              = (if a - c > 0 then a - c else 1)
                + ((r - c) - (if a - c > 0 then a - c else 1)) * t / dd := by
            rw [listRate_cons, hB, if_pos htdd]
            rfl
          rw [hc1, hc2, hRp]
          by_cases hacp : a - c > 0
          · rw [if_pos hacp]
            have : c + (a - c + (r - c - (a - c)) * t / dd) - (a + (r - a) * t / dd)
                = 0 := by ring
            rw [this]
            norm_num
          · have haeq : a = c := le_antisymm (by linarith) hac
            rw [if_neg hacp, haeq]
            have hkey : c + (1 + (r - c - 1) * t / dd) - (c + (r - c) * t / dd)
                = 1 - t / dd := by
              field_simp
              ring
            rw [hkey]
            constructor
            · have : t / dd < 1 := (div_lt_one hd).mpr htdd
              linarith
            · have : 0 ≤ t / dd := div_nonneg ht0 (le_of_lt hd)
              linarith
        · -- the ramp crosses the ceiling
          have hmax : c < max a r := not_le.mp hmx
          have hmin : min a r < c := not_le.mp hmn
          have hx := hex heq hmin hmax
          by_cases hdir : a < r
          · have hac : a < c := by rwa [min_eq_left (le_of_lt hdir)] at hmin
            have hcr : c < r := by rwa [max_eq_right (le_of_lt hdir)] at hmax
            exact c1_cross_up a r dd c t ha hd hac hcr ht0 htdd hx
          · have hlt : r < a := lt_of_le_of_ne (not_lt.mp hdir) heq
            have hrc : r < c := by rwa [min_eq_right (le_of_lt hlt)] at hmin
            have hca : c < a := by rwa [max_eq_left (le_of_lt hlt)] at hmax
            exact c1_cross_down a r dd c t hr hd hrc hca ht0 htdd hx
  case some.none.none.some.none n dd =>
    -- count-over-duration phase
    obtain ⟨hn, hd⟩ := of_decide_eq_true hv
    have htdd : t < dd := htlen
    have hRp : phaseRate ⟨some n, none, none, some dd, none⟩ t = n / dd := rfl
    have hd' : dd ≠ 0 := ne_of_gt hd
    by_cases hge : n / dd ≥ c
    · refine ⟨_, width_count_hi n dd c hge, ?_⟩
      have hA : phaseLength (addArrivalCount ⟨some n, none, none, some dd, none⟩
          ((⌊c * dd⌋ : ℤ) : ℚ) dd) = dd := rfl
      have hB : phaseLength (addArrivalCount ⟨some n, none, none, some dd, none⟩
          (n - ((⌊c * dd⌋ : ℤ) : ℚ)) dd) = dd := rfl
      rw [listRate_cons, listRate_cons, hA, hB, if_pos htdd, if_pos htdd, hRp]
      have hRA : phaseRate (addArrivalCount ⟨some n, none, none, some dd, none⟩
          ((⌊c * dd⌋ : ℤ) : ℚ) dd) t = ((⌊c * dd⌋ : ℤ) : ℚ) / dd := rfl
      have hRB : phaseRate (addArrivalCount ⟨some n, none, none, some dd, none⟩
          (n - ((⌊c * dd⌋ : ℤ) : ℚ)) dd) t = (n - ((⌊c * dd⌋ : ℤ) : ℚ)) / dd := rfl
      rw [hRA, hRB]
      have hkey : ((⌊c * dd⌋ : ℤ) : ℚ) / dd + (n - ((⌊c * dd⌋ : ℤ) : ℚ)) / dd - n / dd
          = 0 := by
        field_simp
      rw [hkey]
      norm_num
    · refine ⟨_, width_count_lo n dd c hge, ?_⟩
      have hA : phaseLength (addArrivalCount ⟨some n, none, none, some dd, none⟩ n dd)
          = dd := rfl
      have hB : phaseLength (addPause ⟨some n, none, none, some dd, none⟩ dd) = dd := rfl
      rw [listRate_cons, listRate_cons, hA, hB, if_pos htdd, if_pos htdd, hRp]
      show 0 ≤ n / dd + 0 - n / dd ∧ n / dd + 0 - n / dd ≤ 1
      constructor <;> [linarith; linarith]
  case none.none.none.none.some q0 =>
    -- pause phase
    have htq : t < q0 := htlen
    have hRp : phaseRate ⟨none, none, none, none, some q0⟩ t = 0 := rfl
    refine ⟨_, width_pause q0 c, ?_⟩
    have hA : phaseLength (addPause ⟨none, none, none, none, some q0⟩ q0) = q0 := rfl
    rw [listRate_cons, hA, if_pos htq, hRp]
    show 0 ≤ 0 + 0 - 0 ∧ 0 + 0 - 0 ≤ 1
    norm_num

/-- Counterexample to claim C1 as stated: for the valid ramp phase
`{arrivalRate: 0, rampTo: 100, duration: 7}` with ceiling 30, the
intersection abscissa `7·30/100 = 2.1` is rounded to 2, and at
`t = 41/20 = 2.05` the chunk (already constant at 30) plus the remainder
(already ramping, floored at 1) exceed the original rate `205/7 ≈ 29.3` by
`1683/700 ≈ 2.4`, more than one unit of rounding. -/
theorem c1_counterexample :
    validPhase ⟨none, some 0, some 100, some 7, none⟩ = true ∧
    (0 : ℚ) < 30 ∧
    (0 : ℚ) ≤ 41/20 ∧
    (41/20 : ℚ) < phaseLength ⟨none, some 0, some 100, some 7, none⟩ ∧
    (splitPhaseByWidth ⟨none, some 0, some 100, some 7, none⟩ 30).map
        (fun parts => listRate parts.1 (41/20) + listRate parts.2 (41/20)
          - phaseRate ⟨none, some 0, some 100, some 7, none⟩ (41/20))
      = some (1683/700) ∧
    ¬(|(1683/700 : ℚ)| ≤ 1) := by
  refine ⟨by decide, by norm_num, by norm_num, by norm_num [phaseLength], ?_, ?_⟩
  · norm_num [splitPhaseByWidth, splitPhaseByWidthMut, normalizeWidthPhase,
      splitPhaseByWidthCore, intersection, intersect, abc, round_eq,
      addRamp, addArrivalRate, addPause, copyOverwrite,
      listRate, phaseLength, phaseRate]
  · rw [abs_of_pos (by norm_num)]
    norm_num

/-- Witness for C1 (amended): the spec's scenario S4 — the ramp
`{arrivalRate: 0, rampTo: 50, duration: 100}` with ceiling 25, whose exact
crossing is at `x = 50` — evaluated at `t = 10`. -/
theorem c1_witness :
    ∃ parts, splitPhaseByWidth ⟨none, some 0, some 50, some 100, none⟩ 25 = some parts ∧
      0 ≤ listRate parts.1 10 + listRate parts.2 10
        - phaseRate ⟨none, some 0, some 50, some 100, none⟩ 10 ∧
      listRate parts.1 10 + listRate parts.2 10
        - phaseRate ⟨none, some 0, some 50, some 100, none⟩ 10 ≤ 1 :=
  c1_width_preservation_amended ⟨none, some 0, some 50, some 100, none⟩ 25 10
    (by decide) (by norm_num)
    (by intro _ _ _; norm_num [round_eq])
    (by norm_num) (by norm_num [phaseLength])

end ClaimC1

end SArt
